import Mathlib

/-!
Verification of the transition system in `src/rnng/models.py` of `pytorch-rnng`.

The embedding below translates the parser state machine of `DiscRNNG` and the
incremental encoder `StackLSTM` into Lean.  Conventions used throughout:

* Python lists that are used as stacks (append / pop at the end) are modelled as
  Lean lists with the *most recent element first* (cons / head).  In particular
  `self._stack[-1]`, `self._history[-1]` and `self._buffer[-1]` correspond to the
  heads of the Lean lists.
* Machine tensors (`Variable`) are abstracted to a type parameter `V`; LSTM hidden
  states `(h, c)` to a type parameter `S`.  The learned numerical layers
  (embedding tables, linear layers, LSTM cells, the composer) are abstracted to
  opaque functions stored in the model; the spec (sections 1 and 6) explicitly
  places their numerical form out of scope.
* A Python method that mutates `self` and may raise is modelled as a function
  `state → state × Option RnngError`: the returned state is the state of the
  object at the moment the call returns or the exception escapes, so partial
  mutation before a raise is represented faithfully.
* Masked log-probabilities (`log_softmax` with `-inf` restrictions) are modelled
  as `WithBot ℚ`, with `⊥` for the `-inf` of a masked (illegal) action and a
  rational for any finite score.
* Vocabulary dictionaries `word2id`, `pos2id`, `nt2id` are modelled as total
  functions (the external collaborator of spec section 6 supplies them, and all
  claims concern in-vocabulary inputs); the action dictionary `actionstr2id` is
  modelled as the list of its keys (`actionVocab`, in insertion order) with
  `aid` the index of an action in that list, so that missing keys (`KeyError`)
  are representable.
-/

set_option linter.unusedVariables false

namespace Rnng

abbrev Word := String
abbrev POSTag := String
abbrev NTLabel := String

/-- The exception kinds raised by `models.py`: `EmptyStackError` (line 16),
`IllegalActionError` (line 124), `ValueError`, `RuntimeError`
(`compute_action_log_probs`, line 505), failed `assert` statements, and the
`KeyError`/`IndexError` of Python dict/list access. -/
inductive RnngError
  | emptyStack
  | illegalAction
  | valueError
  | runtimeError
  | assertionFailed
  | keyError
  | indexError
  deriving DecidableEq, Repr

/-- `StackLSTM` (models.py lines 21-102).  `lstm` abstracts the LSTM cell:
given an input vector and the previous hidden state it yields the next hidden
state and the output.  Python's `_states_hist` always holds the initial
`(h0, c0)` pair as a sentinel first entry; here the sentinel is the `init`
field and `states_hist` holds the entries *beyond* the sentinel, most recent
first.  `outputs_hist` likewise holds the outputs, most recent first. -/
structure StackLSTM (S V : Type) where
  lstm : V → S → S × V
  init : S
  states_hist : List S
  outputs_hist : List V

/-- `StackLSTM.__len__` (line 101): the number of outputs. -/
def StackLSTM.len (e : StackLSTM S V) : Nat :=
  e.outputs_hist.length

/-- `StackLSTM.forward` (lines 67-79): run the cell on the last hidden state,
append the new state and output, return the new state.  The input-size check
is not represented: the abstract type `V` carries no size. -/
def StackLSTM.forward (e : StackLSTM S V) (inputs : V) : StackLSTM S V × S :=
  let prev := e.states_hist.headD e.init
  let next := e.lstm inputs prev
  ({ e with states_hist := next.1 :: e.states_hist,
            outputs_hist := next.2 :: e.outputs_hist }, next.1)

/-- `StackLSTM.push` (lines 81-82) forwards to `forward`. -/
def StackLSTM.push (e : StackLSTM S V) (inputs : V) : StackLSTM S V × S :=
  e.forward inputs

/-- `StackLSTM.pop` (lines 84-89): if more than the sentinel remains, pop the
output history and then the state history, returning the popped state;
otherwise raise `EmptyStackError`.  The middle case is Python's `IndexError`
from `self._outputs_hist.pop()` on an (invariant-breaking) encoder whose
output list is empty while states remain. -/
def StackLSTM.pop (e : StackLSTM S V) : StackLSTM S V × Except RnngError S :=
  match e.states_hist, e.outputs_hist with
  | s :: srest, _ :: orest =>
    ({ e with states_hist := srest, outputs_hist := orest }, Except.ok s)
  | _ :: _, [] => (e, Except.error RnngError.indexError)
  | [], _ => (e, Except.error RnngError.emptyStack)

/-- `StackLSTM.top` (lines 91-94): the most recent output, or `None`. -/
def StackLSTM.top (e : StackLSTM S V) : Option V :=
  e.outputs_hist.head?

/-- The loop `while len(encoder) > 0: encoder.pop()` used by `DiscRNNG.start`
(lines 319-324), acting on the two history lists. -/
def drainLists : List V → List S → (List V × List S) × Option RnngError
  | [], ss => (([], ss), none)
  | _ :: orest, _ :: srest => drainLists orest srest
  | os, [] => ((os, []), some RnngError.emptyStack)

/-- Drain an encoder to length zero, as `DiscRNNG.start` does. -/
def StackLSTM.drain (e : StackLSTM S V) : StackLSTM S V × Option RnngError :=
  let r := drainLists e.outputs_hist e.states_hist
  ({ e with outputs_hist := r.1.1, states_hist := r.1.2 }, r.2)

/-- The well-formedness invariant of an encoder (spec section 3): one state
entry per output entry.  Freshly constructed encoders satisfy it and `push`
and `pop` preserve it. -/
def StackLSTM.WF (e : StackLSTM S V) : Prop :=
  e.states_hist.length = e.outputs_hist.length

instance (e : StackLSTM S V) : Decidable e.WF := by
  unfold StackLSTM.WF; infer_instance

/-- The parser actions (`rnng/actions.py`, attested by its imports and call
sites in models.py): `ShiftAction`, `ReduceAction`, `NTAction(label)`. -/
inductive Action
  | shift
  | reduce
  | nt (label : NTLabel)
  deriving DecidableEq, Repr

/-- The `subtree` field of a `StackElement`: a `Word` or an `nltk.tree.Tree`
(a label with an ordered list of children). -/
inductive Subtree
  | word (w : Word)
  | tree (label : NTLabel) (children : List Subtree)

/-- `StackElement` (models.py lines 118-121). -/
structure StackElement (V : Type) where
  subtree : Subtree
  emb : V
  is_open_nt : Bool

/-- The immutable configuration of a `DiscRNNG`: vocabulary mappings, the
action vocabulary (the keys of `actionstr2id` in insertion order; the id of an
action is its index), the final embeddings prepared by `_prepare_embeddings`,
the three guard parameters, the composer (`_compose`, lines 481-501, whose
LSTM arithmetic is out of scope) and the scoring head of
`compute_action_log_probs` (the finite part of the masked log-softmax over the
three encoder summaries, lines 507-520). -/
structure RnngConfig (S V : Type) where
  word2id : Word → Nat
  pos2id : POSTag → Nat
  nt2id : NTLabel → Nat
  actionVocab : List Action
  word_emb : Nat → V
  nt_emb : Nat → V
  action_emb : Nat → V
  stack_guard : V
  buffer_guard : V
  history_guard : V
  compose : V → List V → V
  rawScore : V → V → V → Nat → ℚ

/-- `DiscRNNG` (models.py lines 128-540): the mutable parser state
(lines 164-169) together with the three encoders (lines 177-189) and the
immutable configuration. -/
structure DiscRNNG (S V : Type) where
  cfg : RnngConfig S V
  stack : List (StackElement V)
  buffer : List Word
  history : List Action
  num_open_nt : Int
  started : Bool
  stack_encoder : StackLSTM S V
  buffer_encoder : StackLSTM S V
  history_encoder : StackLSTM S V

/-- `DiscRNNG.MAX_OPEN_NT` (line 129). -/
def DiscRNNG.MAX_OPEN_NT : Int := 100

/-- `num_actions` (lines 242-244): the size of the action vocabulary. -/
def DiscRNNG.num_actions (p : DiscRNNG S V) : Nat :=
  p.cfg.actionVocab.length

/-- `self.actionstr2id[str(action)]` as an index into `actionVocab`. -/
def DiscRNNG.aid (p : DiscRNNG S V) (a : Action) : Nat :=
  p.cfg.actionVocab.indexOf a

/-- The inverse mapping `id2actionstr` built by `decode` (line 357), followed
by `Action.from_string`. -/
def DiscRNNG.id2action (p : DiscRNNG S V) (i : Nat) : Action :=
  p.cfg.actionVocab.getD i Action.shift

/-- `DiscRNNG.finished` (lines 258-262). -/
def DiscRNNG.finished (p : DiscRNNG S V) : Bool :=
  match p.stack with
  | [el] => !el.is_open_nt && p.buffer.isEmpty
  | _ => false

/-- `_verify_action` (lines 434-438): raise unless started and not finished. -/
def DiscRNNG.verify_action (p : DiscRNNG S V) : DiscRNNG S V × Option RnngError :=
  if p.started = false then (p, some RnngError.illegalAction)
  else if p.finished then (p, some RnngError.illegalAction)
  else (p, none)

/-- `verify_push_nt` (lines 383-388). -/
def DiscRNNG.verify_push_nt (p : DiscRNNG S V) : DiscRNNG S V × Option RnngError :=
  match p.verify_action with
  | (p1, some e) => (p1, some e)
  | (p1, none) =>
    if p1.buffer.length = 0 then (p1, some RnngError.illegalAction)
    else if DiscRNNG.MAX_OPEN_NT ≤ p1.num_open_nt then (p1, some RnngError.illegalAction)
    else (p1, none)

/-- `verify_shift` (lines 390-395). -/
def DiscRNNG.verify_shift (p : DiscRNNG S V) : DiscRNNG S V × Option RnngError :=
  match p.verify_action with
  | (p1, some e) => (p1, some e)
  | (p1, none) =>
    if p1.buffer.length = 0 then (p1, some RnngError.illegalAction)
    else if p1.num_open_nt = 0 then (p1, some RnngError.illegalAction)
    else (p1, none)

/-- `len(self._history) > 0 and isinstance(self._history[-1], NTAction)`
(line 399). -/
def DiscRNNG.lastIsNT (p : DiscRNNG S V) : Bool :=
  match p.history with
  | Action.nt _ :: _ => true
  | _ => false

/-- `verify_reduce` (lines 397-405). -/
def DiscRNNG.verify_reduce (p : DiscRNNG S V) : DiscRNNG S V × Option RnngError :=
  match p.verify_action with
  | (p1, some e) => (p1, some e)
  | (p1, none) =>
    if p1.lastIsNT then (p1, some RnngError.illegalAction)
    else if p1.num_open_nt < 2 ∧ p1.buffer.length > 0 then (p1, some RnngError.illegalAction)
    else (p1, none)

/-- `_append_history` (lines 440-444): append to history, look the action up
in `actionstr2id` (a possible `KeyError`, after the history append but before
the encoder push), and push its final embedding into the history encoder. -/
def DiscRNNG.append_history (p : DiscRNNG S V) (action : Action) :
    DiscRNNG S V × Option RnngError :=
  let p1 := { p with history := action :: p.history }
  if action ∈ p1.cfg.actionVocab then
    ({ p1 with history_encoder :=
        (p1.history_encoder.push (p1.cfg.action_emb (p1.aid action))).1 }, none)
  else (p1, some RnngError.keyError)

/-- `_push_nt` (lines 446-452): push an open nonterminal with an empty child
list onto the stack, push its embedding into the stack encoder, and increment
the open-nonterminal counter. -/
def DiscRNNG.doPushNt (p : DiscRNNG S V) (nonterm : NTLabel) : DiscRNNG S V :=
  let emb := p.cfg.nt_emb (p.cfg.nt2id nonterm)
  { p with stack := ⟨Subtree.tree nonterm [], emb, true⟩ :: p.stack,
           stack_encoder := (p.stack_encoder.push emb).1,
           num_open_nt := p.num_open_nt + 1 }

/-- `_shift` (lines 454-461): pop the buffer (and the buffer encoder), push
the word onto the stack as a closed element, and push its embedding into the
stack encoder.  The two leading `assert` statements are the failure cases. -/
def DiscRNNG.doShift (p : DiscRNNG S V) : DiscRNNG S V × Option RnngError :=
  match p.buffer with
  | [] => (p, some RnngError.assertionFailed)
  | word :: rest =>
    if p.buffer_encoder.len = 0 then (p, some RnngError.assertionFailed)
    else
      let p1 := { p with buffer := rest }
      match p1.buffer_encoder.pop with
      | (be, Except.error e) => ({ p1 with buffer_encoder := be }, some e)
      | (be, Except.ok _) =>
        let emb := p1.cfg.word_emb (p1.cfg.word2id word)
        ({ p1 with buffer_encoder := be,
                   stack := ⟨Subtree.word word, emb, false⟩ :: p1.stack,
                   stack_encoder := (p1.stack_encoder.push emb).1 }, none)

/-- The `while` loop of `_reduce` (lines 465-466): pop `(subtree, emb)` pairs
while the stack is nonempty and its top is not an open nonterminal; returns
the popped pairs (pop order) and the remaining stack. -/
def splitChildren : List (StackElement V) → List (Subtree × V) × List (StackElement V)
  | [] => ([], [])
  | el :: rest =>
    if el.is_open_nt then ([], el :: rest)
    else
      let r := splitChildren rest
      ((el.subtree, el.emb) :: r.1, r.2)

/-- `_reduce` (lines 463-479): collect the closed top run as children, pop the
open nonterminal beneath, attach the children in left-to-right order, compose
their embeddings, push the closed composite, and decrement the counter.  Note
that, exactly as in the source, the *stack encoder is never popped or pushed
here*: only the symbolic stack changes. -/
def DiscRNNG.doReduce (p : DiscRNNG S V) : DiscRNNG S V × Option RnngError :=
  let r := splitChildren p.stack
  let childrenRev := r.1
  let p1 := { p with stack := r.2 }
  if childrenRev.length = 0 then (p1, some RnngError.assertionFailed)
  else
    match p1.stack with
    | [] => (p1, some RnngError.assertionFailed)
    | opener :: rest2 =>
      let children := childrenRev.reverse
      let p2 := { p1 with stack := rest2 }
      match opener.subtree with
      | Subtree.word _ => (p2, some RnngError.assertionFailed)
      | Subtree.tree label kids =>
        let parent := Subtree.tree label (kids ++ children.map Prod.fst)
        let composed := p2.cfg.compose opener.emb (children.map Prod.snd)
        let p3 := { p2 with stack := ⟨parent, composed, false⟩ :: rest2,
                            num_open_nt := p2.num_open_nt - 1 }
        if p3.num_open_nt < 0 then (p3, some RnngError.assertionFailed)
        else (p3, none)

/-- `push_nt` (lines 367-371): verify, apply, append to history. -/
def DiscRNNG.push_nt (p : DiscRNNG S V) (nonterm : NTLabel) :
    DiscRNNG S V × Option RnngError :=
  match p.verify_push_nt with
  | (p1, some e) => (p1, some e)
  | (p1, none) => (p1.doPushNt nonterm).append_history (Action.nt nonterm)

/-- `shift` (lines 373-376). -/
def DiscRNNG.shift (p : DiscRNNG S V) : DiscRNNG S V × Option RnngError :=
  match p.verify_shift with
  | (p1, some e) => (p1, some e)
  | (p1, none) =>
    match p1.doShift with
    | (p2, some e) => (p2, some e)
    | (p2, none) => p2.append_history Action.shift

/-- `reduce` (lines 378-381). -/
def DiscRNNG.reduce (p : DiscRNNG S V) : DiscRNNG S V × Option RnngError :=
  match p.verify_reduce with
  | (p1, some e) => (p1, some e)
  | (p1, none) =>
    match p1.doReduce with
    | (p2, some e) => (p2, some e)
    | (p2, none) => p2.append_history Action.reduce

/-- The loop `for word in reversed(words)` of `start` (lines 333-337): append
each word to the buffer and push its final embedding into the buffer encoder.
The argument list is `words.reverse`. -/
def DiscRNNG.pushBufferWords (p : DiscRNNG S V) : List Word → DiscRNNG S V
  | [] => p
  | w :: ws =>
    let p1 := { p with buffer := w :: p.buffer,
                       buffer_encoder :=
                         (p.buffer_encoder.push (p.cfg.word_emb (p.cfg.word2id w))).1 }
    p1.pushBufferWords ws

/-- `start` (lines 307-338): validate the input lengths, reset the symbolic
state, drain the three encoders, push the guards, initialize the buffer (in
reverse order, so that the first word ends on top) and mark the parser as
started.  `_prepare_embeddings` only computes the final embeddings, which are
carried in `cfg` here. -/
def DiscRNNG.start (p : DiscRNNG S V) (words : List Word) (pos_tags : List POSTag) :
    DiscRNNG S V × Option RnngError :=
  if words.length ≠ pos_tags.length then (p, some RnngError.valueError)
  else if words.length = 0 then (p, some RnngError.valueError)
  else
    let p1 := { p with stack := [], buffer := [], history := ([] : List Action),
                       num_open_nt := 0, started := false }
    match p1.stack_encoder.drain with
    | (se, some e) => ({ p1 with stack_encoder := se }, some e)
    | (se, none) =>
      let p2 := { p1 with stack_encoder := se }
      match p2.buffer_encoder.drain with
      | (be, some e) => ({ p2 with buffer_encoder := be }, some e)
      | (be, none) =>
        let p3 := { p2 with buffer_encoder := be }
        match p3.history_encoder.drain with
        | (he, some e) => ({ p3 with history_encoder := he }, some e)
        | (he, none) =>
          let p4 := { p3 with history_encoder := he }
          let p5 := { p4 with
            stack_encoder := (p4.stack_encoder.push p4.cfg.stack_guard).1,
            buffer_encoder := (p4.buffer_encoder.push p4.cfg.buffer_guard).1,
            history_encoder := (p4.history_encoder.push p4.cfg.history_guard).1 }
          let p6 := p5.pushBufferWords words.reverse
          ({ p6 with started := true }, none)

/-- Modelled from the spec: the `Action` class hierarchy lives in
`rnng/actions.py`, which is not among the sources; spec section 4.2 pairs each
action with its legality predicate, so `verify_on` dispatches to the matching
`verify_*` method of the model. -/
def Action.verify_on (a : Action) (p : DiscRNNG S V) : DiscRNNG S V × Option RnngError :=
  match a with
  | Action.shift => p.verify_shift
  | Action.reduce => p.verify_reduce
  | Action.nt _ => p.verify_push_nt

/-- Modelled from the spec: `execute_on` of `rnng/actions.py` (not among the
sources) applies the action to the model, per spec section 4.2. -/
def Action.execute_on (a : Action) (p : DiscRNNG S V) : DiscRNNG S V × Option RnngError :=
  match a with
  | Action.shift => p.shift
  | Action.reduce => p.reduce
  | Action.nt label => p.push_nt label

/-- `_is_legal` (lines 530-537): run the verification and catch
`IllegalActionError`; any other exception propagates. -/
def DiscRNNG.is_legal (p : DiscRNNG S V) (a : Action) :
    DiscRNNG S V × Except RnngError Bool :=
  match a.verify_on p with
  | (p1, none) => (p1, Except.ok true)
  | (p1, some RnngError.illegalAction) => (p1, Except.ok false)
  | (p1, some e) => (p1, Except.error e)

/-- The comprehension of `_get_illegal_action_ids` (lines 523-525), iterating
over the action vocabulary with its ids. -/
def DiscRNNG.illegalFrom (p : DiscRNNG S V) :
    Nat → List Action → DiscRNNG S V × Except RnngError (List Nat)
  | _, [] => (p, Except.ok [])
  | i, a :: rest =>
    match p.is_legal a with
    | (p1, Except.error e) => (p1, Except.error e)
    | (p1, Except.ok true) => p1.illegalFrom (i + 1) rest
    | (p1, Except.ok false) =>
      match p1.illegalFrom (i + 1) rest with
      | (p2, Except.ok ids) => (p2, Except.ok (i :: ids))
      | (p2, Except.error e) => (p2, Except.error e)

/-- `_get_illegal_action_ids` (lines 522-528).  The `None`-vs-tensor
distinction for an empty result is immaterial here: an empty restriction list
masks nothing, exactly like `restrictions=None`. -/
def DiscRNNG.get_illegal_action_ids (p : DiscRNNG S V) :
    DiscRNNG S V × Except RnngError (List Nat) :=
  p.illegalFrom 0 p.cfg.actionVocab

/-- `compute_action_log_probs` (lines 503-520): require a started parser,
require the three encoder summaries to be present, compute the illegal-action
mask, and return the masked log-probability vector: `⊥` (that is `-inf`) at
every masked id, and an opaque finite score elsewhere. -/
def DiscRNNG.compute_action_log_probs (p : DiscRNNG S V) :
    DiscRNNG S V × Except RnngError (Nat → WithBot ℚ) :=
  if p.started = false then (p, Except.error RnngError.runtimeError)
  else
    match p.stack_encoder.top, p.buffer_encoder.top, p.history_encoder.top with
    | some st, some bt, some ht =>
      match p.get_illegal_action_ids with
      | (p1, Except.error e) => (p1, Except.error e)
      | (p1, Except.ok illegal) =>
        (p1, Except.ok (fun i =>
          if illegal.contains i then ⊥ else ((p.cfg.rawScore st bt ht i : ℚ) : WithBot ℚ)))
    | _, _, _ => (p, Except.error RnngError.assertionFailed)

/-- Negation of an accumulated log-likelihood (`return -llh`, line 353). -/
def wbNeg (x : WithBot ℚ) : WithBot ℚ :=
  x.map (fun q => -q)

/-- The loop of `forward` (lines 345-353): score the gold action, add its
log-probability, execute it; an `IllegalActionError` breaks the loop, any
other exception propagates; finally return the negated total. -/
def DiscRNNG.forwardLoop (p : DiscRNNG S V) (llh : WithBot ℚ) :
    List Action → DiscRNNG S V × Except RnngError (WithBot ℚ)
  | [] => (p, Except.ok (wbNeg llh))
  | a :: rest =>
    match p.compute_action_log_probs with
    | (p1, Except.error e) => (p1, Except.error e)
    | (p1, Except.ok lp) =>
      if a ∈ p1.cfg.actionVocab then
        let llh2 := llh + lp (p1.aid a)
        match a.execute_on p1 with
        | (p2, some RnngError.illegalAction) => (p2, Except.ok (wbNeg llh2))
        | (p2, some e) => (p2, Except.error e)
        | (p2, none) => p2.forwardLoop llh2 rest
      else (p1, Except.error RnngError.keyError)

/-- `forward` (lines 340-353): start, then run the teacher-forced loop with an
accumulator starting at `0`. -/
def DiscRNNG.forward (p : DiscRNNG S V) (words : List Word) (pos_tags : List POSTag)
    (actions : List Action) : DiscRNNG S V × Except RnngError (WithBot ℚ) :=
  match p.start words pos_tags with
  | (p1, some e) => (p1, Except.error e)
  | (p1, none) => p1.forwardLoop 0 actions

/-- `torch.max(log_probs, dim=0)[1]` over ids `[0, n)`: the smallest id whose
score is maximal (spec section 4.5: ties broken by lowest id). -/
def bestId (f : Nat → WithBot ℚ) : List Nat → Nat → Nat
  | [], best => best
  | i :: rest, best => bestId f rest (if f best < f i then i else best)

def argmaxId (f : Nat → WithBot ℚ) (n : Nat) : Nat :=
  bestId f (List.range n) 0

/-- The `while not self.finished` loop of `decode` (lines 359-365), with an
explicit fuel argument standing for the unbounded Python loop: `none` means
the fuel ran out before the loop exited.  Each iteration scores the actions,
takes the argmax id, records it, and executes the corresponding action;
exceptions propagate. -/
def DiscRNNG.decodeLoop : Nat → DiscRNNG S V → List Nat →
    Option (DiscRNNG S V × Except RnngError (List Nat))
  | 0, _, _ => none
  | fuel + 1, p, acc =>
    if p.finished then some (p, Except.ok acc.reverse)
    else
      match p.compute_action_log_probs with
      | (p1, Except.error e) => some (p1, Except.error e)
      | (p1, Except.ok lp) =>
        let maxA := argmaxId lp p1.num_actions
        match (p1.id2action maxA).execute_on p1 with
        | (p2, some e) => some (p2, Except.error e)
        | (p2, none) => DiscRNNG.decodeLoop fuel p2 (maxA :: acc)

/-- `decode` (lines 355-365): start, then run the greedy loop. -/
def DiscRNNG.decode (p : DiscRNNG S V) (fuel : Nat) (words : List Word)
    (pos_tags : List POSTag) : Option (DiscRNNG S V × Except RnngError (List Nat)) :=
  match p.start words pos_tags with
  | (p1, some e) => some (p1, Except.error e)
  | (p1, none) => DiscRNNG.decodeLoop fuel p1 []

/-! ### Normal forms of the legality checks -/

theorem verify_action_eq (p : DiscRNNG S V) :
    p.verify_action =
      (p, if p.started = true ∧ p.finished = false then none
          else some RnngError.illegalAction) := by
  unfold DiscRNNG.verify_action
  split_ifs with h1 h2 h3 <;> simp_all

theorem verify_push_nt_eq (p : DiscRNNG S V) :
    p.verify_push_nt =
      (p, if p.started = true ∧ p.finished = false then
            (if p.buffer.length = 0 then some RnngError.illegalAction
             else if DiscRNNG.MAX_OPEN_NT ≤ p.num_open_nt then some RnngError.illegalAction
             else none)
          else some RnngError.illegalAction) := by
  unfold DiscRNNG.verify_push_nt
  rw [verify_action_eq]
  by_cases h : p.started = true ∧ p.finished = false <;> simp [h]
  split_ifs <;> rfl

theorem verify_shift_eq (p : DiscRNNG S V) :
    p.verify_shift =
      (p, if p.started = true ∧ p.finished = false then
            (if p.buffer.length = 0 then some RnngError.illegalAction
             else if p.num_open_nt = 0 then some RnngError.illegalAction
             else none)
          else some RnngError.illegalAction) := by
  unfold DiscRNNG.verify_shift
  rw [verify_action_eq]
  by_cases h : p.started = true ∧ p.finished = false <;> simp [h]
  split_ifs <;> rfl

theorem verify_reduce_eq (p : DiscRNNG S V) :
    p.verify_reduce =
      (p, if p.started = true ∧ p.finished = false then
            (if p.lastIsNT then some RnngError.illegalAction
             else if p.num_open_nt < 2 ∧ p.buffer.length > 0 then some RnngError.illegalAction
             else none)
          else some RnngError.illegalAction) := by
  unfold DiscRNNG.verify_reduce
  rw [verify_action_eq]
  by_cases h : p.started = true ∧ p.finished = false <;> simp [h]
  split_ifs <;> rfl

theorem verify_on_fst (a : Action) (p : DiscRNNG S V) : (a.verify_on p).1 = p := by
  cases a <;>
    simp [Action.verify_on, verify_shift_eq, verify_reduce_eq, verify_push_nt_eq]

theorem verify_on_range (a : Action) (p : DiscRNNG S V) :
    (a.verify_on p).2 = none ∨ (a.verify_on p).2 = some RnngError.illegalAction := by
  cases a <;>
    simp only [Action.verify_on, verify_shift_eq, verify_reduce_eq, verify_push_nt_eq] <;>
    split_ifs <;> simp

theorem is_legal_eq (p : DiscRNNG S V) (a : Action) :
    p.is_legal a = (p, Except.ok (decide ((a.verify_on p).2 = none))) := by
  unfold DiscRNNG.is_legal
  have hf := verify_on_fst a p
  rcases verify_on_range a p with h | h <;>
    rcases hv : a.verify_on p with ⟨p1, r⟩ <;> rw [hv] at h hf <;> simp_all

/-- The pure value of the `_get_illegal_action_ids` comprehension, starting at
id `i`: the ids of the actions whose verification fails. -/
def illegalIdsPure (p : DiscRNNG S V) : Nat → List Action → List Nat
  | _, [] => []
  | i, a :: rest =>
    if (a.verify_on p).2 = none then illegalIdsPure p (i + 1) rest
    else i :: illegalIdsPure p (i + 1) rest

theorem illegalFrom_eq (p : DiscRNNG S V) (l : List Action) (i : Nat) :
    p.illegalFrom i l = (p, Except.ok (illegalIdsPure p i l)) := by
  induction l generalizing i with
  | nil => rfl
  | cons a rest ih =>
    unfold DiscRNNG.illegalFrom illegalIdsPure
    rw [is_legal_eq]
    by_cases h : (a.verify_on p).2 = none <;> simp [h, ih]

theorem get_illegal_action_ids_eq (p : DiscRNNG S V) :
    p.get_illegal_action_ids = (p, Except.ok (illegalIdsPure p 0 p.cfg.actionVocab)) :=
  illegalFrom_eq p p.cfg.actionVocab 0

/-! ### Claims C3, C7, C8, C9, C10 -/

/-- Claim C3: for every started, unfinished state, `verify_reduce` succeeds
exactly when the most recent history action is not an `OpenNonterminal` and
either at least two nonterminals are open or the buffer is empty; in every
other case it raises `IllegalActionError`. -/
theorem C3_verify_reduce_iff (p : DiscRNNG S V) (h1 : p.started = true)
    (h2 : p.finished = false) :
    ((p.verify_reduce).2 = none ↔
      (p.lastIsNT = false ∧ (2 ≤ p.num_open_nt ∨ p.buffer = [])))
    ∧ ((p.verify_reduce).2 = none ∨
       (p.verify_reduce).2 = some RnngError.illegalAction) := by
  have hsnd : (p.verify_reduce).2 =
      (if p.lastIsNT then some RnngError.illegalAction
       else if p.num_open_nt < 2 ∧ 0 < p.buffer.length then some RnngError.illegalAction
       else none) := by
    rw [verify_reduce_eq]
    exact if_pos ⟨h1, h2⟩
  rw [hsnd]
  constructor
  · constructor
    · intro h
      by_cases hnt : p.lastIsNT
      · rw [if_pos hnt] at h; exact absurd h (by simp)
      · refine ⟨by simpa using hnt, ?_⟩
        rw [if_neg hnt] at h
        by_cases hob : p.num_open_nt < 2 ∧ 0 < p.buffer.length
        · rw [if_pos hob] at h; exact absurd h (by simp)
        · by_cases ho : 2 ≤ p.num_open_nt
          · exact Or.inl ho
          · right
            by_cases hbl : 0 < p.buffer.length
            · exact absurd ⟨by omega, hbl⟩ hob
            · exact List.eq_nil_of_length_eq_zero (by omega)
    · rintro ⟨hnt, hor⟩
      rw [if_neg (by simp [hnt]), if_neg ?_]
      rintro ⟨hlt, hbl⟩
      rcases hor with h2o | h2o
      · omega
      · rw [h2o] at hbl; exact absurd hbl (by simp)
  · by_cases hnt : p.lastIsNT
    · rw [if_pos hnt]; exact Or.inr rfl
    · rw [if_neg hnt]
      by_cases hob : p.num_open_nt < 2 ∧ 0 < p.buffer.length
      · rw [if_pos hob]; exact Or.inr rfl
      · rw [if_neg hob]; exact Or.inl rfl

/-- Claim C7: in every started, unfinished state with zero open nonterminals,
`shift` fails with `IllegalActionError` and returns the state completely
unchanged (stack, buffer, history, counter, flag and all three encoders). -/
theorem C7_shift_illegal_unchanged (p : DiscRNNG S V) (h1 : p.started = true)
    (h2 : p.finished = false) (h3 : p.num_open_nt = 0) :
    p.shift = (p, some RnngError.illegalAction) := by
  unfold DiscRNNG.shift
  rw [verify_shift_eq]
  by_cases hb : p.buffer.length = 0 <;> simp [h1, h2, h3, hb]

/-- Claim C8: popping an encoder removes the most recently pushed element and
its summary, restoring the encoder exactly as before the push; it fails with
`EmptyStackError` precisely when only the sentinel remains (length zero), and
then leaves the encoder unchanged. -/
theorem C8_pop_spec (e : StackLSTM S V) (h : e.WF) :
    (∀ v : V, ((e.push v).1).pop = (e, Except.ok ((e.push v).2)))
    ∧ (e.len = 0 → e.pop = (e, Except.error RnngError.emptyStack))
    ∧ (e.len ≠ 0 → ∃ e2 s, e.pop = (e2, Except.ok s) ∧ e2.len = e.len - 1) := by
  obtain ⟨f, s0, sh, oh⟩ := e
  refine ⟨fun v => rfl, fun h0 => ?_, fun h0 => ?_⟩
  · have ho : oh = [] := List.length_eq_zero.mp h0
    have hs : sh = [] := List.length_eq_zero.mp (by
      simp only [StackLSTM.WF] at h
      simpa [ho] using h)
    subst ho hs
    rfl
  · rcases oh with _ | ⟨o, orest⟩
    · exact absurd rfl h0
    rcases sh with _ | ⟨s, srest⟩
    · simp only [StackLSTM.WF] at h; simp at h
    exact ⟨_, s, rfl, rfl⟩

/-- Claim C9: `start` raises `ValueError` on unequal input lengths or empty
input before performing any mutation: the returned state is the original one,
with the symbolic stacks, counter, flag and all three encoders untouched. -/
theorem C9_start_validation (p : DiscRNNG S V) (words : List Word)
    (pos_tags : List POSTag)
    (h : words.length ≠ pos_tags.length ∨ words.length = 0) :
    p.start words pos_tags = (p, some RnngError.valueError) := by
  unfold DiscRNNG.start
  by_cases h1 : words.length ≠ pos_tags.length
  · simp [h1]
  · have h2 : words.length = 0 := by tauto
    simp [h1, h2]

/-- Claim C10: the legality predicates `verify_push_nt`, `verify_shift` and
`verify_reduce` never mutate the parser state, whether they raise or return,
and consequently the legality-mask computation `_get_illegal_action_ids`
probes every action id without side effects. -/
theorem C10_verify_frame (p : DiscRNNG S V) :
    (p.verify_push_nt).1 = p ∧ (p.verify_shift).1 = p ∧ (p.verify_reduce).1 = p ∧
    (p.get_illegal_action_ids).1 = p := by
  refine ⟨?_, ?_, ?_, ?_⟩
  · rw [verify_push_nt_eq]
  · rw [verify_shift_eq]
  · rw [verify_reduce_eq]
  · rw [get_illegal_action_ids_eq]

/-! ### A concrete instantiation, used to exercise the theorems -/

/-- A small concrete configuration over `S = V = Nat`, with the action
vocabulary `[NT(S), SHIFT, REDUCE]` (ids 0, 1, 2) and raw scores that prefer
SHIFT, then REDUCE, then NT. -/
def sampleCfg : RnngConfig Nat Nat where
  word2id := fun _ => 0
  pos2id := fun _ => 0
  nt2id := fun _ => 0
  actionVocab := [Action.nt "S", Action.shift, Action.reduce]
  word_emb := fun _ => 1
  nt_emb := fun _ => 2
  action_emb := fun _ => 3
  stack_guard := 7
  buffer_guard := 8
  history_guard := 9
  compose := fun v l => v + l.length
  rawScore := fun _ _ _ i => if i = 1 then 5 else if i = 2 then 3 else 1

/-- A freshly constructed encoder: empty histories, a sentinel state. -/
def sampleEnc : StackLSTM Nat Nat where
  lstm := fun v s => (s + v, v)
  init := 0
  states_hist := []
  outputs_hist := []

/-- A freshly constructed parser, before `start`. -/
def sample0 : DiscRNNG Nat Nat where
  cfg := sampleCfg
  stack := []
  buffer := []
  history := []
  num_open_nt := 0
  started := false
  stack_encoder := sampleEnc
  buffer_encoder := sampleEnc
  history_encoder := sampleEnc

/-- The parser right after `start(["a"], ["A"])`. -/
def sampleStarted : DiscRNNG Nat Nat :=
  (sample0.start ["a"] ["A"]).1

/-- `sampleStarted` after `push_nt "S"`. -/
def sampleOpen : DiscRNNG Nat Nat :=
  (sampleStarted.push_nt "S").1

/-- `sampleOpen` after `shift`: stack `[word a, open S]`, empty buffer. -/
def sampleReady : DiscRNNG Nat Nat :=
  (sampleOpen.shift).1

/-- Witness for C3 at `sampleReady`, where Reduce is legal. -/
theorem C3_witness :
    sampleReady.started = true ∧ sampleReady.finished = false ∧
    (((sampleReady.verify_reduce).2 = none ↔
        (sampleReady.lastIsNT = false ∧
          (2 ≤ sampleReady.num_open_nt ∨ sampleReady.buffer = [])))
      ∧ ((sampleReady.verify_reduce).2 = none ∨
         (sampleReady.verify_reduce).2 = some RnngError.illegalAction)) :=
  ⟨rfl, rfl, C3_verify_reduce_iff sampleReady rfl rfl⟩

/-- Witness for C7 at `sampleStarted`, where no nonterminal is open. -/
theorem C7_witness :
    sampleStarted.started = true ∧ sampleStarted.finished = false ∧
    sampleStarted.num_open_nt = 0 ∧
    sampleStarted.shift = (sampleStarted, some RnngError.illegalAction) :=
  ⟨rfl, rfl, rfl, C7_shift_illegal_unchanged sampleStarted rfl rfl rfl⟩

/-- Witness for C8 at the freshly constructed encoder (length zero). -/
theorem C8_witness :
    StackLSTM.WF sampleEnc ∧
    sampleEnc.pop = (sampleEnc, Except.error RnngError.emptyStack) :=
  ⟨rfl, (C8_pop_spec sampleEnc rfl).2.1 rfl⟩

/-- Witness for C9 with empty input. -/
theorem C9_witness :
    sample0.start [] [] = (sample0, some RnngError.valueError) :=
  C9_start_validation sample0 [] [] (Or.inr rfl)

/-! ### Claim C1: the stack encoder is not mirrored by Reduce -/

/-- Claim C1 (evidence of the divergence): at the reachable state
`sampleReady` — reached by `start(["a"], ["A"])`, `push_nt "S"`, `shift` —
Reduce is legal and collects exactly one child, and the claim asserts that the
stack encoder is popped once per popped stack element (child and opener) and
pushed once for the composite, a net depth change of `-1` (from 3 to 2).  The
code's `_reduce` never pops or pushes the stack encoder: its depth stays 3 and
the encoder is bit-for-bit unchanged. -/
theorem C1_stack_encoder_not_mirrored :
    (sampleReady.verify_reduce).2 = none ∧
    (sampleReady.reduce).2 = none ∧
    (splitChildren sampleReady.stack).1.length = 1 ∧
    sampleReady.stack_encoder.len = 3 ∧
    ((sampleReady.reduce).1).stack_encoder = sampleReady.stack_encoder ∧
    ((sampleReady.reduce).1).stack_encoder.len = 3 := by
  refine ⟨rfl, rfl, rfl, rfl, rfl, rfl⟩

/-! ### Reachable states and their invariant -/

theorem verify_push_nt_fst (p : DiscRNNG S V) : (p.verify_push_nt).1 = p := by
  rw [verify_push_nt_eq]

theorem verify_shift_fst (p : DiscRNNG S V) : (p.verify_shift).1 = p := by
  rw [verify_shift_eq]

theorem verify_reduce_fst (p : DiscRNNG S V) : (p.verify_reduce).1 = p := by
  rw [verify_reduce_eq]

theorem verify_push_nt_snd (p : DiscRNNG S V) :
    (p.verify_push_nt).2 =
      (if p.started = true ∧ p.finished = false then
        (if p.buffer.length = 0 then some RnngError.illegalAction
         else if DiscRNNG.MAX_OPEN_NT ≤ p.num_open_nt then some RnngError.illegalAction
         else none)
       else some RnngError.illegalAction) := by
  rw [verify_push_nt_eq]

theorem verify_shift_snd (p : DiscRNNG S V) :
    (p.verify_shift).2 =
      (if p.started = true ∧ p.finished = false then
        (if p.buffer.length = 0 then some RnngError.illegalAction
         else if p.num_open_nt = 0 then some RnngError.illegalAction
         else none)
       else some RnngError.illegalAction) := by
  rw [verify_shift_eq]

theorem verify_reduce_snd (p : DiscRNNG S V) :
    (p.verify_reduce).2 =
      (if p.started = true ∧ p.finished = false then
        (if p.lastIsNT then some RnngError.illegalAction
         else if p.num_open_nt < 2 ∧ 0 < p.buffer.length then some RnngError.illegalAction
         else none)
       else some RnngError.illegalAction) := by
  rw [verify_reduce_eq]

/-- The number of still-open `StackElement`s on a stack. -/
def openCount (st : List (StackElement V)) : Nat :=
  st.countP (fun el => el.is_open_nt)

theorem openCount_cons_closed (el : StackElement V) (st : List (StackElement V))
    (h : el.is_open_nt = false) : openCount (el :: st) = openCount st := by
  simp [openCount, List.countP_cons, h]

theorem openCount_cons_open (el : StackElement V) (st : List (StackElement V))
    (h : el.is_open_nt = true) : openCount (el :: st) = openCount st + 1 := by
  simp [openCount, List.countP_cons, h]

/-- The invariant satisfied by every state reachable through a successful
`start` followed by successfully executed actions. -/
structure Inv (p : DiscRNNG S V) : Prop where
  started : p.started = true
  openc : p.num_open_nt = (openCount p.stack : Int)
  open_le : openCount p.stack ≤ 100
  nt_buf : p.lastIsNT = true → p.buffer ≠ []
  hist_nil_stack : p.history = [] → p.stack = []
  hist_nil_buf : p.history = [] → p.buffer ≠ []
  hist_stack : p.history ≠ [] → p.stack ≠ []
  top_closed : p.lastIsNT = false → p.history ≠ [] →
      ∃ el rest, p.stack = el :: rest ∧ el.is_open_nt = false
  bottom : ∀ b, p.stack.getLast? = some b →
      b.is_open_nt = true ∨ (p.stack = [b] ∧ p.buffer = [])
  open_tree : ∀ el ∈ p.stack, el.is_open_nt = true →
      ∃ lab kids, el.subtree = Subtree.tree lab kids
  buf_enc_len : p.buffer_encoder.len = p.buffer.length + 1
  buf_enc_ge : p.buffer_encoder.outputs_hist.length ≤ p.buffer_encoder.states_hist.length
  stk_enc_pos : 1 ≤ p.stack_encoder.len
  hist_enc_pos : 1 ≤ p.history_encoder.len

/-- A state is reachable when some successful `start` produced it, possibly
followed by successfully executed actions (spec section 3, lifecycle). -/
inductive Reachable (p0 : DiscRNNG S V) : DiscRNNG S V → Prop
  | start (words : List Word) (pos_tags : List POSTag) (q : DiscRNNG S V) :
      p0.start words pos_tags = (q, none) → Reachable p0 q
  | step (p q : DiscRNNG S V) (a : Action) :
      Reachable p0 p → a.execute_on p = (q, none) → Reachable p0 q

theorem drainLists_ok (o : List V) (s : List S) (h : (drainLists o s).2 = none) :
    (drainLists o s).1.1 = [] := by
  induction o generalizing s with
  | nil => simp [drainLists]
  | cons a orest ih =>
    cases s with
    | nil => simp [drainLists] at h
    | cons b srest => exact ih srest (by simpa [drainLists] using h)

theorem drain_ok (e e2 : StackLSTM S V) (h : e.drain = (e2, none)) :
    e2.outputs_hist = [] := by
  unfold StackLSTM.drain at h
  have h2 : (drainLists e.outputs_hist e.states_hist).2 = none := by
    have := congrArg Prod.snd h
    simpa using this
  have h1 := congrArg Prod.fst h
  simp only at h1
  rw [← h1]
  exact drainLists_ok e.outputs_hist e.states_hist h2

theorem pushBufferWords_shape (ws : List Word) (p : DiscRNNG S V) :
    (p.pushBufferWords ws).buffer = ws.reverse ++ p.buffer ∧
    (p.pushBufferWords ws).buffer_encoder.outputs_hist.length
        = ws.length + p.buffer_encoder.outputs_hist.length ∧
    (p.pushBufferWords ws).buffer_encoder.states_hist.length
        = ws.length + p.buffer_encoder.states_hist.length ∧
    (p.pushBufferWords ws).cfg = p.cfg ∧
    (p.pushBufferWords ws).stack = p.stack ∧
    (p.pushBufferWords ws).history = p.history ∧
    (p.pushBufferWords ws).num_open_nt = p.num_open_nt ∧
    (p.pushBufferWords ws).started = p.started ∧
    (p.pushBufferWords ws).stack_encoder = p.stack_encoder ∧
    (p.pushBufferWords ws).history_encoder = p.history_encoder := by
  induction ws generalizing p with
  | nil => simp [DiscRNNG.pushBufferWords]
  | cons w ws ih =>
    have h := ih { p with buffer := w :: p.buffer,
                          buffer_encoder :=
                            (p.buffer_encoder.push (p.cfg.word_emb (p.cfg.word2id w))).1 }
    obtain ⟨h1, h2, h3, h4, h5, h6, h7, h8, h9, h10⟩ := h
    refine ⟨?_, ?_, ?_, ?_, ?_, ?_, ?_, ?_, ?_, ?_⟩ <;>
      simp_all [DiscRNNG.pushBufferWords, StackLSTM.push, StackLSTM.forward] <;> omega

/-- The shape of the state produced by a successful `start`. -/
theorem start_ok (p q : DiscRNNG S V) (words : List Word) (pos_tags : List POSTag)
    (h : p.start words pos_tags = (q, none)) :
    q.cfg = p.cfg ∧ q.stack = [] ∧ q.buffer = words ∧ q.history = [] ∧
    q.num_open_nt = 0 ∧ q.started = true ∧ words ≠ [] ∧
    q.buffer_encoder.len = words.length + 1 ∧
    q.buffer_encoder.outputs_hist.length ≤ q.buffer_encoder.states_hist.length ∧
    q.stack_encoder.len = 1 ∧ q.history_encoder.len = 1 := by
  unfold DiscRNNG.start at h
  split at h
  · exact absurd (congrArg Prod.snd h) (by simp)
  split at h
  · exact absurd (congrArg Prod.snd h) (by simp)
  rename_i h1 h2
  dsimp only at h
  split at h
  · exact absurd (congrArg Prod.snd h) (by simp)
  rename_i se hd1
  split at h
  · exact absurd (congrArg Prod.snd h) (by simp)
  rename_i be hd2
  split at h
  · exact absurd (congrArg Prod.snd h) (by simp)
  rename_i he hd3
  have hse := drain_ok _ se hd1
  have hbe := drain_ok _ be hd2
  have hhe := drain_ok _ he hd3
  have hq := (congrArg Prod.fst h).symm
  simp only at hq
  subst hq
  have hw : words ≠ [] := fun hn => h2 (by rw [hn]; rfl)
  obtain ⟨s1, s2, s3, s4, s5, s6, s7, s8, s9, s10⟩ := pushBufferWords_shape
    (S := S) (V := V) words.reverse _
  refine ⟨by rw [s4], by rw [s5], ?_, by rw [s6], by rw [s7], rfl, hw, ?_, ?_, ?_, ?_⟩
  · rw [s1]; simp
  · show (DiscRNNG.pushBufferWords _ _).buffer_encoder.outputs_hist.length = _
    rw [s2]
    simp [StackLSTM.push, StackLSTM.forward, hbe]
  · rw [s2, s3]
    simp [StackLSTM.push, StackLSTM.forward, hbe]
  · show (DiscRNNG.pushBufferWords _ _).stack_encoder.outputs_hist.length = 1
    rw [s9]
    simp [StackLSTM.push, StackLSTM.forward, hse]
  · show (DiscRNNG.pushBufferWords _ _).history_encoder.outputs_hist.length = 1
    rw [s10]
    simp [StackLSTM.push, StackLSTM.forward, hhe]

/-! ### List helpers -/

theorem getLast?_cons_ne_nil {α : Type} (a : α) (l : List α) (h : l ≠ []) :
    (a :: l).getLast? = l.getLast? := by
  cases l with
  | nil => exact absurd rfl h
  | cons b t => simp [List.getLast?]

theorem getLast?_append_ne_nil {α : Type} (l1 l2 : List α) (h : l2 ≠ []) :
    (l1 ++ l2).getLast? = l2.getLast? := by
  induction l1 with
  | nil => rfl
  | cons a t ih =>
    rw [List.cons_append,
        getLast?_cons_ne_nil a (t ++ l2) (fun hn => h (List.append_eq_nil.mp hn).2), ih]

theorem exists_getLast?_of_ne_nil {α : Type} (l : List α) (h : l ≠ []) :
    ∃ b, l.getLast? = some b := by
  induction l with
  | nil => exact absurd rfl h
  | cons a t ih =>
    cases t with
    | nil => exact ⟨a, rfl⟩
    | cons b t2 =>
      obtain ⟨c, hc⟩ := ih (by simp)
      exact ⟨c, by rw [getLast?_cons_ne_nil a _ (by simp), hc]⟩

theorem mem_of_getLast?_rnng {α : Type} (l : List α) (b : α) (h : l.getLast? = some b) :
    b ∈ l := by
  induction l with
  | nil => simp [List.getLast?] at h
  | cons a t ih =>
    cases t with
    | nil =>
      have ha : a = b := by simpa [List.getLast?] using h
      simp [ha]
    | cons c t2 =>
      rw [getLast?_cons_ne_nil a _ (by simp)] at h
      simp [ih h]

/-! ### Characterizations of successful legality checks -/

theorem verify_push_nt_none (p : DiscRNNG S V) (h : (p.verify_push_nt).2 = none) :
    p.started = true ∧ p.finished = false ∧ p.buffer ≠ [] ∧
    ¬ DiscRNNG.MAX_OPEN_NT ≤ p.num_open_nt := by
  rw [verify_push_nt_snd] at h
  by_cases hc : p.started = true ∧ p.finished = false
  · rw [if_pos hc] at h
    by_cases hb : p.buffer.length = 0
    · rw [if_pos hb] at h; simp at h
    rw [if_neg hb] at h
    by_cases hm : DiscRNNG.MAX_OPEN_NT ≤ p.num_open_nt
    · rw [if_pos hm] at h; simp at h
    exact ⟨hc.1, hc.2, fun hn => hb (by rw [hn]; rfl), hm⟩
  · rw [if_neg hc] at h; simp at h

theorem verify_shift_none (p : DiscRNNG S V) (h : (p.verify_shift).2 = none) :
    p.started = true ∧ p.finished = false ∧ p.buffer ≠ [] ∧ p.num_open_nt ≠ 0 := by
  rw [verify_shift_snd] at h
  by_cases hc : p.started = true ∧ p.finished = false
  · rw [if_pos hc] at h
    by_cases hb : p.buffer.length = 0
    · rw [if_pos hb] at h; simp at h
    rw [if_neg hb] at h
    by_cases hm : p.num_open_nt = 0
    · rw [if_pos hm] at h; simp at h
    exact ⟨hc.1, hc.2, fun hn => hb (by rw [hn]; rfl), hm⟩
  · rw [if_neg hc] at h; simp at h

theorem verify_reduce_none (p : DiscRNNG S V) (h : (p.verify_reduce).2 = none) :
    p.started = true ∧ p.finished = false ∧ p.lastIsNT = false ∧
    ¬(p.num_open_nt < 2 ∧ 0 < p.buffer.length) := by
  rw [verify_reduce_snd] at h
  by_cases hc : p.started = true ∧ p.finished = false
  · rw [if_pos hc] at h
    by_cases hnt : p.lastIsNT
    · rw [if_pos hnt] at h; simp at h
    rw [if_neg hnt] at h
    by_cases hm : p.num_open_nt < 2 ∧ 0 < p.buffer.length
    · rw [if_pos hm] at h; simp at h
    exact ⟨hc.1, hc.2, by simpa using hnt, hm⟩
  · rw [if_neg hc] at h; simp at h

/-! ### Success inversions of the mutating operations -/

theorem append_history_inv (p q : DiscRNNG S V) (a : Action)
    (h : p.append_history a = (q, none)) :
    a ∈ p.cfg.actionVocab ∧
    q = { p with history := a :: p.history,
                 history_encoder :=
                   (p.history_encoder.push (p.cfg.action_emb (p.aid a))).1 } := by
  unfold DiscRNNG.append_history at h
  dsimp only at h
  by_cases hm : a ∈ p.cfg.actionVocab
  · rw [if_pos hm] at h
    simp only [Prod.mk.injEq] at h
    exact ⟨hm, h.1.symm⟩
  · rw [if_neg hm] at h
    simp at h

theorem push_nt_inv (p q : DiscRNNG S V) (lab : NTLabel)
    (h : p.push_nt lab = (q, none)) :
    (p.verify_push_nt).2 = none ∧
    (p.doPushNt lab).append_history (Action.nt lab) = (q, none) := by
  unfold DiscRNNG.push_nt at h
  rcases hh : p.verify_push_nt with ⟨p1, r⟩
  have hp1 : p1 = p := by have hf := verify_push_nt_fst p; rw [hh] at hf; exact hf
  rw [hh] at h
  cases r with
  | some e => simp at h
  | none =>
    rw [hp1] at h hh
    exact ⟨by simp [hh], h⟩

theorem shift_inv (p q : DiscRNNG S V) (h : p.shift = (q, none)) :
    (p.verify_shift).2 = none ∧
    ∃ q2, p.doShift = (q2, none) ∧ q2.append_history Action.shift = (q, none) := by
  unfold DiscRNNG.shift at h
  rcases hh : p.verify_shift with ⟨p1, r⟩
  have hp1 : p1 = p := by have hf := verify_shift_fst p; rw [hh] at hf; exact hf
  rw [hh] at h
  cases r with
  | some e => simp at h
  | none =>
    rw [hp1] at h hh
    refine ⟨by simp [hh], ?_⟩
    have h2 : (match p.doShift with
               | (p2, some e) => (p2, some e)
               | (p2, none) => p2.append_history Action.shift) = (q, none) := h
    rcases hd : p.doShift with ⟨q2, r2⟩
    rw [hd] at h2
    cases r2 with
    | some e => simp at h2
    | none => exact ⟨q2, rfl, h2⟩

/-- Successful `_shift` on a nonempty buffer with a well-formed, nonempty
buffer encoder: the effect of models.py lines 454-461. -/
theorem doShift_ok (p : DiscRNNG S V) (w : Word) (rest : List Word)
    (hb : p.buffer = w :: rest)
    (h1 : 1 ≤ p.buffer_encoder.outputs_hist.length)
    (h2 : p.buffer_encoder.outputs_hist.length ≤ p.buffer_encoder.states_hist.length) :
    ∃ q, p.doShift = (q, none) ∧
      q.cfg = p.cfg ∧ q.buffer = rest ∧
      q.stack = ⟨Subtree.word w, p.cfg.word_emb (p.cfg.word2id w), false⟩ :: p.stack ∧
      q.history = p.history ∧ q.num_open_nt = p.num_open_nt ∧ q.started = p.started ∧
      q.stack_encoder.len = p.stack_encoder.len + 1 ∧
      q.history_encoder = p.history_encoder ∧
      q.buffer_encoder.outputs_hist.length = p.buffer_encoder.outputs_hist.length - 1 ∧
      q.buffer_encoder.states_hist.length = p.buffer_encoder.states_hist.length - 1 := by
  unfold DiscRNNG.doShift
  rw [hb]
  dsimp only
  have hlen : ¬ p.buffer_encoder.len = 0 := by
    unfold StackLSTM.len
    omega
  rw [if_neg hlen]
  rcases hoo : p.buffer_encoder.outputs_hist with _ | ⟨o, orest⟩
  · rw [hoo] at h1; simp at h1
  rcases hso : p.buffer_encoder.states_hist with _ | ⟨s, srest⟩
  · rw [hso, hoo] at h2; simp at h2
  have hpop : ({ p with buffer := rest } : DiscRNNG S V).buffer_encoder.pop =
      ({ p.buffer_encoder with states_hist := srest, outputs_hist := orest },
        Except.ok s) := by
    show p.buffer_encoder.pop = _
    unfold StackLSTM.pop
    rw [hso, hoo]
  rw [hpop]
  refine ⟨_, rfl, rfl, rfl, rfl, rfl, rfl, rfl, ?_, rfl, ?_, ?_⟩
  · simp [StackLSTM.push, StackLSTM.forward, StackLSTM.len]
  · simp [hoo]
  · simp [hso]

theorem splitChildren_append (st : List (StackElement V)) :
    ∃ pre, st = pre ++ (splitChildren st).2 ∧
      pre.map (fun el => (el.subtree, el.emb)) = (splitChildren st).1 ∧
      ∀ el ∈ pre, el.is_open_nt = false := by
  induction st with
  | nil => exact ⟨[], by simp [splitChildren], by simp [splitChildren], by simp⟩
  | cons el rest ih =>
    by_cases h : el.is_open_nt
    · exact ⟨[], by simp [splitChildren, h], by simp [splitChildren, h], by simp⟩
    · obtain ⟨pre, h1, h2, h3⟩ := ih
      refine ⟨el :: pre, ?_, ?_, ?_⟩
      · simp only [splitChildren, if_neg h, List.cons_append]
        exact congrArg (el :: ·) h1
      · simp only [splitChildren, if_neg h, List.map_cons]
        exact congrArg ((el.subtree, el.emb) :: ·) h2
      · intro x hx
        rcases List.mem_cons.mp hx with hx | hx
        · rw [hx]; simpa using h
        · exact h3 x hx

theorem splitChildren_head_open (st : List (StackElement V)) (opener : StackElement V)
    (rest2 : List (StackElement V)) (h : (splitChildren st).2 = opener :: rest2) :
    opener.is_open_nt = true := by
  induction st with
  | nil => simp [splitChildren] at h
  | cons el rest ih =>
    by_cases ho : el.is_open_nt
    · rw [show (splitChildren (el :: rest)).2 = el :: rest by
          simp [splitChildren, ho]] at h
      injection h with hh1 hh2
      rw [← hh1]
      exact ho
    · exact ih (by simpa [splitChildren, ho] using h)

theorem splitChildren_cons_closed (el : StackElement V) (rest : List (StackElement V))
    (h : el.is_open_nt = false) :
    (splitChildren (el :: rest)).1 = (el.subtree, el.emb) :: (splitChildren rest).1 := by
  simp [splitChildren, h]

/-- Successful `_reduce` when the stack splits into a nonempty closed run, an
opener carrying a `Tree`, and a remainder, with at least one open nonterminal
counted: the effect of models.py lines 463-479.  The stack encoder, buffer and
buffer encoder are untouched. -/
theorem doReduce_ok (p : DiscRNNG S V) (cs : List (Subtree × V))
    (opener : StackElement V) (rest2 : List (StackElement V)) (lab : NTLabel)
    (kids : List Subtree)
    (hsplit : splitChildren p.stack = (cs, opener :: rest2))
    (hcs : cs ≠ [])
    (hsub : opener.subtree = Subtree.tree lab kids)
    (hnum : 1 ≤ p.num_open_nt) :
    p.doReduce =
      ({ p with stack := ⟨Subtree.tree lab (kids ++ (cs.reverse.map Prod.fst)),
                          p.cfg.compose opener.emb (cs.reverse.map Prod.snd),
                          false⟩ :: rest2,
                num_open_nt := p.num_open_nt - 1 }, none) := by
  unfold DiscRNNG.doReduce
  rw [hsplit]
  dsimp only
  rw [if_neg (fun hz => hcs (List.length_eq_zero.mp hz))]
  try dsimp only
  rw [hsub]
  try dsimp only
  rw [if_neg (show ¬ p.num_open_nt - 1 < 0 by omega)]

theorem reduce_inv (p q : DiscRNNG S V) (h : p.reduce = (q, none)) :
    (p.verify_reduce).2 = none ∧
    ∃ q2, p.doReduce = (q2, none) ∧ q2.append_history Action.reduce = (q, none) := by
  unfold DiscRNNG.reduce at h
  rcases hh : p.verify_reduce with ⟨p1, r⟩
  have hp1 : p1 = p := by have hf := verify_reduce_fst p; rw [hh] at hf; exact hf
  rw [hh] at h
  cases r with
  | some e => simp at h
  | none =>
    rw [hp1] at h hh
    refine ⟨by simp [hh], ?_⟩
    have h2 : (match p.doReduce with
               | (p2, some e) => (p2, some e)
               | (p2, none) => p2.append_history Action.reduce) = (q, none) := h
    rcases hd : p.doReduce with ⟨q2, r2⟩
    rw [hd] at h2
    cases r2 with
    | some e => simp at h2
    | none => exact ⟨q2, rfl, h2⟩

/-! ### The invariant holds after `start` and is preserved by the actions -/

theorem inv_start (p q : DiscRNNG S V) (words : List Word) (pos_tags : List POSTag)
    (h : p.start words pos_tags = (q, none)) : Inv q := by
  obtain ⟨c0, s1, s2, s3, s4, s5, s6, s7, s8, s9, s10⟩ := start_ok p q words pos_tags h
  constructor
  · exact s5
  · rw [s4, s1]; rfl
  · rw [s1]; simp [openCount]
  · intro h'
    rw [DiscRNNG.lastIsNT, s3] at h'
    simp at h'
  · intro _; exact s1
  · intro _; rw [s2]; exact s6
  · intro h'; exact absurd s3 h'
  · intro _ h'; exact absurd s3 h'
  · intro b hb; rw [s1] at hb; simp [List.getLast?] at hb
  · intro el hel; rw [s1] at hel; simp at hel
  · rw [s2]; exact s7
  · exact s8
  · omega
  · omega

theorem inv_push_nt (p q : DiscRNNG S V) (lab : NTLabel) (hInv : Inv p)
    (h : p.push_nt lab = (q, none)) : Inv q := by
  obtain ⟨hv, happ⟩ := push_nt_inv p q lab h
  obtain ⟨hs, hf, hb, hm⟩ := verify_push_nt_none p hv
  have hm2 : p.num_open_nt < 100 := by
    unfold DiscRNNG.MAX_OPEN_NT at hm
    omega
  obtain ⟨hmem, hq⟩ := append_history_inv _ q _ happ
  subst hq
  dsimp only [DiscRNNG.doPushNt]
  have hopenc := hInv.openc
  have hoc : openCount ((⟨Subtree.tree lab [], p.cfg.nt_emb (p.cfg.nt2id lab), true⟩ :
        StackElement V) :: p.stack) = openCount p.stack + 1 := by
    simp [openCount, List.countP_cons]
  constructor
  · exact hInv.started
  · show p.num_open_nt + 1 =
      ((openCount ((⟨Subtree.tree lab [], p.cfg.nt_emb (p.cfg.nt2id lab), true⟩ :
        StackElement V) :: p.stack) : Nat) : Int)
    rw [hoc]
    omega
  · show openCount ((⟨Subtree.tree lab [], p.cfg.nt_emb (p.cfg.nt2id lab), true⟩ :
        StackElement V) :: p.stack) ≤ 100
    rw [hoc]
    omega
  · intro _; exact hb
  · intro h'; simp at h'
  · intro h'; simp at h'
  · intro _; simp
  · intro hfalse _
    simp [DiscRNNG.lastIsNT] at hfalse
  · intro b hb2
    have hb3 : ((⟨Subtree.tree lab [], p.cfg.nt_emb (p.cfg.nt2id lab), true⟩ :
        StackElement V) :: p.stack).getLast? = some b := hb2
    rcases hps : p.stack with _ | ⟨x, xs⟩
    · left
      rw [hps] at hb3
      simp [List.getLast?] at hb3
      subst hb3
      rfl
    · rw [hps, getLast?_cons_ne_nil _ _ (by simp)] at hb3
      rcases hInv.bottom b (by rw [hps]; exact hb3) with ho | ⟨_, hbe⟩
      · exact Or.inl ho
      · exact absurd hbe hb
  · intro el hel hopen
    rcases List.mem_cons.mp hel with hel | hel
    · exact ⟨lab, [], by rw [hel]⟩
    · exact hInv.open_tree el hel hopen
  · exact hInv.buf_enc_len
  · exact hInv.buf_enc_ge
  · simp [StackLSTM.push, StackLSTM.forward, StackLSTM.len]
  · simp [StackLSTM.push, StackLSTM.forward, StackLSTM.len]

theorem inv_shift (p q : DiscRNNG S V) (hInv : Inv p)
    (h : p.shift = (q, none)) : Inv q := by
  obtain ⟨hv, q2, hdo, happ⟩ := shift_inv p q h
  obtain ⟨hs, hf, hbne, hnz⟩ := verify_shift_none p hv
  rcases hbuf : p.buffer with _ | ⟨w, rest⟩
  · exact absurd hbuf hbne
  have hol : 1 ≤ p.buffer_encoder.outputs_hist.length := by
    have := hInv.buf_enc_len
    unfold StackLSTM.len at this
    omega
  obtain ⟨q', hdo', c1, c2, c3, c4, c5, c6, c7, c8, c9, c10⟩ :=
    doShift_ok p w rest hbuf hol hInv.buf_enc_ge
  rw [hdo] at hdo'
  have hq2 : q2 = q' := by
    simpa using congrArg Prod.fst hdo'
  subst hq2
  obtain ⟨hmem, hq⟩ := append_history_inv _ q _ happ
  subst hq
  have hopenc := hInv.openc
  have hps : p.stack ≠ [] := by
    intro hn
    rw [hInv.openc] at hnz
    rw [hn] at hnz
    exact hnz rfl
  constructor
  · show q2.started = true
    rw [c6]; exact hs
  · show q2.num_open_nt = (openCount q2.stack : Int)
    rw [c5, c3, openCount_cons_closed _ _ rfl]
    exact hInv.openc
  · show openCount q2.stack ≤ 100
    rw [c3, openCount_cons_closed _ _ rfl]
    exact hInv.open_le
  · intro h'
    simp [DiscRNNG.lastIsNT] at h'
  · intro h'; simp at h'
  · intro h'; simp at h'
  · intro _
    show q2.stack ≠ []
    rw [c3]; simp
  · intro _ _
    exact ⟨_, _, c3, rfl⟩
  · intro b hb2
    have hb3 : q2.stack.getLast? = some b := hb2
    rw [c3, getLast?_cons_ne_nil _ _ hps] at hb3
    rcases hInv.bottom b hb3 with ho | ⟨_, hbe⟩
    · exact Or.inl ho
    · exact absurd hbe hbne
  · intro el hel hopen
    have hel2 : el ∈ q2.stack := hel
    rw [c3] at hel2
    rcases List.mem_cons.mp hel2 with he | he
    · rw [he] at hopen
      simp at hopen
    · exact hInv.open_tree el he hopen
  · show q2.buffer_encoder.len = q2.buffer.length + 1
    have := hInv.buf_enc_len
    unfold StackLSTM.len at this ⊢
    rw [hbuf] at this
    rw [c9, c2]
    simp at this ⊢
    omega
  · show q2.buffer_encoder.outputs_hist.length ≤ q2.buffer_encoder.states_hist.length
    have := hInv.buf_enc_ge
    rw [c9, c10]
    omega
  · show 1 ≤ q2.stack_encoder.len
    rw [c7]
    omega
  · show 1 ≤ (q2.history_encoder.push (q2.cfg.action_emb (q2.aid Action.shift))).1.len
    simp [StackLSTM.push, StackLSTM.forward, StackLSTM.len]

/-- In an invariant state where `verify_reduce` succeeds, the stack really
splits into a nonempty closed run, an opener holding a `Tree`, and a
remainder, with at least one open nonterminal counted. -/
theorem reduce_setup (p : DiscRNNG S V) (hInv : Inv p)
    (hv : (p.verify_reduce).2 = none) :
    ∃ cs opener rest2 lab kids,
      splitChildren p.stack = (cs, opener :: rest2) ∧ cs ≠ [] ∧
      opener.subtree = Subtree.tree lab kids ∧
      1 ≤ p.num_open_nt ∧
      openCount p.stack = openCount rest2 + 1 ∧
      (∃ pre, p.stack = pre ++ opener :: rest2) := by
  obtain ⟨hs, hf, hnt, hcond⟩ := verify_reduce_none p hv
  have hhist : p.history ≠ [] := by
    intro hh
    have hst := hInv.hist_nil_stack hh
    have hbuf := hInv.hist_nil_buf hh
    have hzero : p.num_open_nt = 0 := by
      rw [hInv.openc, hst]; rfl
    refine hbuf (List.eq_nil_of_length_eq_zero ?_)
    by_contra hlen
    exact hcond ⟨by omega, by omega⟩
  obtain ⟨el, rest, hstack, hclosed⟩ := hInv.top_closed hnt hhist
  have hopen1 : 1 ≤ openCount p.stack := by
    by_contra hc0
    have hc0' : openCount p.stack = 0 := by omega
    have hz : p.num_open_nt = 0 := by rw [hInv.openc, hc0']; rfl
    have hbuf : p.buffer = [] := by
      by_contra hbne
      exact hcond ⟨by omega, List.length_pos.mpr hbne⟩
    obtain ⟨b, hbl⟩ := exists_getLast?_of_ne_nil p.stack (by rw [hstack]; simp)
    have hbmem := mem_of_getLast?_rnng _ _ hbl
    have hbc : b.is_open_nt = false := by
      by_contra hbo
      have hbo' : b.is_open_nt = true := by
        rcases hx : b.is_open_nt
        · exact absurd hx hbo
        · rfl
      have : 0 < openCount p.stack := by
        unfold openCount
        rw [List.countP_pos_iff]
        exact ⟨b, hbmem, by simp [hbo']⟩
      omega
    rcases hInv.bottom b hbl with hbo | ⟨hsing, _⟩
    · rw [hbo] at hbc; cases hbc
    · have hfin : p.finished = true := by
        unfold DiscRNNG.finished
        rw [hsing]
        dsimp only
        simp [hbc, hbuf]
      rw [hfin] at hf; cases hf
  have hnum : 1 ≤ p.num_open_nt := by
    have := hInv.openc; omega
  obtain ⟨pre, hpre, hmap, hcl⟩ := splitChildren_append p.stack
  rcases h2 : (splitChildren p.stack).2 with _ | ⟨opener, rest2⟩
  · exfalso
    rw [h2, List.append_nil] at hpre
    have : openCount p.stack = 0 := by
      rw [hpre]
      unfold openCount
      rw [List.countP_eq_zero]
      intro a ha
      simp [hcl a ha]
    omega
  have hop := splitChildren_head_open p.stack opener rest2 h2
  obtain ⟨lab, kids, hsub⟩ := hInv.open_tree opener
    (by rw [hpre, h2]; exact List.mem_append_right _ (List.mem_cons_self _ _)) hop
  have hcs : (splitChildren p.stack).1 ≠ [] := by
    rw [hstack, splitChildren_cons_closed el rest hclosed]
    simp
  have hoc : openCount p.stack = openCount rest2 + 1 := by
    have hpre2 : p.stack = pre ++ opener :: rest2 := by rw [hpre, h2]
    rw [hpre2]
    unfold openCount
    rw [List.countP_append, List.countP_cons]
    have hpz : List.countP (fun e => e.is_open_nt) pre = 0 := by
      rw [List.countP_eq_zero]
      intro a ha
      simp [hcl a ha]
    simp [hpz, hop]
  refine ⟨(splitChildren p.stack).1, opener, rest2, lab, kids, ?_, hcs, hsub, hnum, hoc,
    pre, by rw [hpre, h2]⟩
  rw [← h2]

theorem inv_reduce (p q : DiscRNNG S V) (hInv : Inv p)
    (h : p.reduce = (q, none)) : Inv q := by
  obtain ⟨hv, q2, hdo, happ⟩ := reduce_inv p q h
  obtain ⟨hs, hf, hnt, hcond⟩ := verify_reduce_none p hv
  obtain ⟨cs, opener, rest2, lab, kids, hsplit, hcs, hsub, hnum, hoc, pre, hpre⟩ :=
    reduce_setup p hInv hv
  have hdo2 := doReduce_ok p cs opener rest2 lab kids hsplit hcs hsub hnum
  rw [hdo] at hdo2
  have hq2 : q2 = ({ p with
      stack := ⟨Subtree.tree lab (kids ++ cs.reverse.map Prod.fst),
                p.cfg.compose opener.emb (cs.reverse.map Prod.snd), false⟩ :: rest2,
      num_open_nt := p.num_open_nt - 1 } : DiscRNNG S V) := by
    have hfst := congrArg Prod.fst hdo2
    simpa using hfst
  subst hq2
  obtain ⟨hmem, hq⟩ := append_history_inv _ q _ happ
  subst hq
  dsimp only
  have hopenc := hInv.openc
  constructor
  · exact hs
  · show p.num_open_nt - 1 =
      (openCount ((⟨Subtree.tree lab (kids ++ cs.reverse.map Prod.fst),
        p.cfg.compose opener.emb (cs.reverse.map Prod.snd), false⟩ : StackElement V)
        :: rest2) : Int)
    rw [openCount_cons_closed _ _ rfl]
    omega
  · show openCount ((⟨Subtree.tree lab (kids ++ cs.reverse.map Prod.fst),
        p.cfg.compose opener.emb (cs.reverse.map Prod.snd), false⟩ : StackElement V)
        :: rest2) ≤ 100
    rw [openCount_cons_closed _ _ rfl]
    have := hInv.open_le
    omega
  · intro h'
    simp [DiscRNNG.lastIsNT] at h'
  · intro h'; simp at h'
  · intro h'; simp at h'
  · intro _; simp
  · intro _ _
    exact ⟨_, rest2, rfl, rfl⟩
  · intro b hb2
    rcases hr2 : rest2 with _ | ⟨x, xs⟩
    · have hb3 : ([(⟨Subtree.tree lab (kids ++ cs.reverse.map Prod.fst),
          p.cfg.compose opener.emb (cs.reverse.map Prod.snd), false⟩ : StackElement V)]
          ).getLast? = some b := by rw [← hr2]; exact hb2
      rw [List.getLast?_singleton] at hb3
      have hbb := Option.some.inj hb3
      subst hbb
      right
      have hone : openCount p.stack = 1 := by
        rw [hoc, hr2]; rfl
      have hnum1 : p.num_open_nt = 1 := by
        rw [hInv.openc, hone]; rfl
      have hb4 : p.buffer = [] := by
        by_contra hbne
        exact hcond ⟨by omega, List.length_pos.mpr hbne⟩
      exact ⟨rfl, hb4⟩
    · have hb3 : ((⟨Subtree.tree lab (kids ++ cs.reverse.map Prod.fst),
          p.cfg.compose opener.emb (cs.reverse.map Prod.snd), false⟩ : StackElement V)
          :: x :: xs).getLast? = some b := by rw [← hr2]; exact hb2
      rw [getLast?_cons_ne_nil _ _ (by simp)] at hb3
      have hbold : p.stack.getLast? = some b := by
        rw [hpre, hr2, getLast?_append_ne_nil _ _ (by simp),
            getLast?_cons_ne_nil _ _ (by simp)]
        exact hb3
      rcases hInv.bottom b hbold with ho | ⟨hsing, _⟩
      · exact Or.inl ho
      · exfalso
        have hlen := congrArg List.length hsing
        rw [hpre, hr2] at hlen
        simp only [List.length_append, List.length_cons, List.length_nil] at hlen
        omega
  · intro el hel hopen
    have hel2 : el ∈ (⟨Subtree.tree lab (kids ++ cs.reverse.map Prod.fst),
        p.cfg.compose opener.emb (cs.reverse.map Prod.snd), false⟩ : StackElement V)
        :: rest2 := hel
    rcases List.mem_cons.mp hel2 with he | he
    · rw [he] at hopen; simp at hopen
    · refine hInv.open_tree el ?_ hopen
      rw [hpre]
      exact List.mem_append_right _ (List.mem_cons_of_mem _ he)
  · exact hInv.buf_enc_len
  · exact hInv.buf_enc_ge
  · exact hInv.stk_enc_pos
  · simp [StackLSTM.push, StackLSTM.forward, StackLSTM.len]

theorem inv_execute (p q : DiscRNNG S V) (a : Action) (hInv : Inv p)
    (h : a.execute_on p = (q, none)) : Inv q := by
  cases a with
  | shift => exact inv_shift p q hInv h
  | reduce => exact inv_reduce p q hInv h
  | nt lab => exact inv_push_nt p q lab hInv h

theorem inv_reachable (p0 p : DiscRNNG S V) (h : Reachable p0 p) : Inv p := by
  induction h with
  | start w t q hs => exact inv_start p0 q w t hs
  | step p q a hr he ih => exact inv_execute p q a ih he

/-! ### Claims C2 and C4 -/

/-- In an invariant state that is not finished, at least one of the three
legality checks succeeds. -/
theorem not_stuck (p : DiscRNNG S V) (hInv : Inv p) (hf : p.finished = false) :
    (p.verify_push_nt).2 = none ∨ (p.verify_shift).2 = none ∨
      (p.verify_reduce).2 = none := by
  rcases hbuf : p.buffer with _ | ⟨w, rest⟩
  · right; right
    rw [verify_reduce_snd, if_pos ⟨hInv.started, hf⟩]
    have hnt : p.lastIsNT = false := by
      rcases hx : p.lastIsNT
      · rfl
      · exact absurd hbuf (hInv.nt_buf hx)
    rw [if_neg (by simp [hnt]), if_neg (by rw [hbuf]; simp)]
  · by_cases hcap : DiscRNNG.MAX_OPEN_NT ≤ p.num_open_nt
    · right; left
      rw [verify_shift_snd, if_pos ⟨hInv.started, hf⟩]
      have h1 : ¬ p.buffer.length = 0 := by rw [hbuf]; simp
      have h2 : ¬ p.num_open_nt = 0 := by
        unfold DiscRNNG.MAX_OPEN_NT at hcap
        omega
      rw [if_neg h1, if_neg h2]
    · left
      rw [verify_push_nt_snd, if_pos ⟨hInv.started, hf⟩]
      have h1 : ¬ p.buffer.length = 0 := by rw [hbuf]; simp
      rw [if_neg h1, if_neg hcap]

/-- Claim C2: in every state reachable from a successful `start` by
successfully executed actions, if the parser is not finished then at least one
of OpenNonterminal, Shift, Reduce passes its verify check, and once it is
finished every verify check fails. -/
theorem C2_never_stuck (p0 p : DiscRNNG S V) (h : Reachable p0 p) :
    (p.finished = false →
      (p.verify_push_nt).2 = none ∨ (p.verify_shift).2 = none ∨
        (p.verify_reduce).2 = none)
    ∧ (p.finished = true →
      (p.verify_push_nt).2 ≠ none ∧ (p.verify_shift).2 ≠ none ∧
        (p.verify_reduce).2 ≠ none) := by
  have hInv := inv_reachable p0 p h
  constructor
  · exact not_stuck p hInv
  · intro hf
    have hno : ¬ (p.started = true ∧ p.finished = false) := by
      rintro ⟨-, hff⟩
      rw [hf] at hff
      cases hff
    refine ⟨?_, ?_, ?_⟩
    · rw [verify_push_nt_snd, if_neg hno]; simp
    · rw [verify_shift_snd, if_neg hno]; simp
    · rw [verify_reduce_snd, if_neg hno]; simp

/-- Witness for C2 at a concrete reachable state. -/
theorem C2_witness :
    (sampleStarted.finished = false →
      (sampleStarted.verify_push_nt).2 = none ∨
        (sampleStarted.verify_shift).2 = none ∨
        (sampleStarted.verify_reduce).2 = none)
    ∧ (sampleStarted.finished = true →
      (sampleStarted.verify_push_nt).2 ≠ none ∧
        (sampleStarted.verify_shift).2 ≠ none ∧
        (sampleStarted.verify_reduce).2 ≠ none) :=
  C2_never_stuck sample0 sampleStarted
    (Reachable.start ["a"] ["A"] sampleStarted rfl)

/-- Claim C4: in every reachable state the open-nonterminal counter equals the
number of open elements on the stack and is nonnegative; each operation
(`start` and every successfully executed action) re-establishes the
equality. -/
theorem C4_open_count (p0 p : DiscRNNG S V) (h : Reachable p0 p) :
    p.num_open_nt = (openCount p.stack : Int) ∧ 0 ≤ p.num_open_nt ∧
    (∀ (a : Action) (q : DiscRNNG S V), a.execute_on p = (q, none) →
        q.num_open_nt = (openCount q.stack : Int) ∧ 0 ≤ q.num_open_nt) ∧
    (∀ (words : List Word) (pos_tags : List POSTag) (q : DiscRNNG S V),
        p.start words pos_tags = (q, none) →
        q.num_open_nt = (openCount q.stack : Int) ∧ 0 ≤ q.num_open_nt) := by
  have hInv := inv_reachable p0 p h
  refine ⟨hInv.openc, by rw [hInv.openc]; omega, ?_, ?_⟩
  · intro a q hq
    have hI := inv_execute p q a hInv hq
    exact ⟨hI.openc, by rw [hI.openc]; omega⟩
  · intro w t q hq
    have hI := inv_start p q w t hq
    exact ⟨hI.openc, by rw [hI.openc]; omega⟩

/-- A concrete reachability derivation for the witnesses: start, NT(S), SHIFT. -/
def sampleReachableReady : Reachable sample0 sampleReady :=
  Reachable.step sampleOpen sampleReady Action.shift
    (Reachable.step sampleStarted sampleOpen (Action.nt "S")
      (Reachable.start ["a"] ["A"] sampleStarted rfl) rfl) rfl

/-- Witness for C4 at a concrete reachable state with one open nonterminal. -/
theorem C4_witness :
    sampleReady.num_open_nt = (openCount sampleReady.stack : Int) ∧
      0 ≤ sampleReady.num_open_nt :=
  ⟨(C4_open_count sample0 sampleReady sampleReachableReady).1,
   (C4_open_count sample0 sampleReady sampleReachableReady).2.1⟩

/-! ### Running a legal action always succeeds (progress) -/

theorem append_history_ok (p : DiscRNNG S V) (a : Action) (hm : a ∈ p.cfg.actionVocab) :
    p.append_history a =
      ({ p with history := a :: p.history,
                history_encoder :=
                  (p.history_encoder.push (p.cfg.action_emb (p.aid a))).1 }, none) := by
  unfold DiscRNNG.append_history
  dsimp only
  rw [if_pos hm]
  rfl

theorem push_nt_run (p : DiscRNNG S V) (lab : NTLabel)
    (hv : (p.verify_push_nt).2 = none) :
    p.push_nt lab = (p.doPushNt lab).append_history (Action.nt lab) := by
  unfold DiscRNNG.push_nt
  rcases hh : p.verify_push_nt with ⟨p1, r⟩
  have hp1 : p1 = p := by have hf := verify_push_nt_fst p; rw [hh] at hf; exact hf
  rw [hh] at hv
  have hr : r = none := hv
  subst hr
  show (p1.doPushNt lab).append_history (Action.nt lab) = _
  rw [hp1]

theorem shift_run (p : DiscRNNG S V) (hv : (p.verify_shift).2 = none) :
    p.shift = (match p.doShift with
               | (p2, some e) => (p2, some e)
               | (p2, none) => p2.append_history Action.shift) := by
  unfold DiscRNNG.shift
  rcases hh : p.verify_shift with ⟨p1, r⟩
  have hp1 : p1 = p := by have hf := verify_shift_fst p; rw [hh] at hf; exact hf
  rw [hh] at hv
  have hr : r = none := hv
  subst hr
  show (match p1.doShift with
        | (p2, some e) => (p2, some e)
        | (p2, none) => p2.append_history Action.shift) = _
  rw [hp1]

theorem reduce_run (p : DiscRNNG S V) (hv : (p.verify_reduce).2 = none) :
    p.reduce = (match p.doReduce with
                | (p2, some e) => (p2, some e)
                | (p2, none) => p2.append_history Action.reduce) := by
  unfold DiscRNNG.reduce
  rcases hh : p.verify_reduce with ⟨p1, r⟩
  have hp1 : p1 = p := by have hf := verify_reduce_fst p; rw [hh] at hf; exact hf
  rw [hh] at hv
  have hr : r = none := hv
  subst hr
  show (match p1.doReduce with
        | (p2, some e) => (p2, some e)
        | (p2, none) => p2.append_history Action.reduce) = _
  rw [hp1]

/-- An action whose verification raises leaves the state untouched and the
exception surfaces from `execute_on`. -/
theorem execute_fail_of_illegal (p : DiscRNNG S V) (a : Action)
    (hv : (a.verify_on p).2 = some RnngError.illegalAction) :
    a.execute_on p = (p, some RnngError.illegalAction) := by
  cases a with
  | shift =>
    unfold Action.execute_on DiscRNNG.shift
    rcases hh : p.verify_shift with ⟨p1, r⟩
    have hp1 : p1 = p := by have hf := verify_shift_fst p; rw [hh] at hf; exact hf
    rw [show (Action.shift.verify_on p) = p.verify_shift from rfl, hh] at hv
    have hr : r = some RnngError.illegalAction := hv
    subst hr
    show (p1, some RnngError.illegalAction) = (p, some RnngError.illegalAction)
    rw [hp1]
  | reduce =>
    unfold Action.execute_on DiscRNNG.reduce
    rcases hh : p.verify_reduce with ⟨p1, r⟩
    have hp1 : p1 = p := by have hf := verify_reduce_fst p; rw [hh] at hf; exact hf
    rw [show (Action.reduce.verify_on p) = p.verify_reduce from rfl, hh] at hv
    have hr : r = some RnngError.illegalAction := hv
    subst hr
    show (p1, some RnngError.illegalAction) = (p, some RnngError.illegalAction)
    rw [hp1]
  | nt lab =>
    unfold Action.execute_on DiscRNNG.push_nt
    rcases hh : p.verify_push_nt with ⟨p1, r⟩
    have hp1 : p1 = p := by have hf := verify_push_nt_fst p; rw [hh] at hf; exact hf
    rw [show ((Action.nt lab).verify_on p) = p.verify_push_nt from rfl, hh] at hv
    have hr : r = some RnngError.illegalAction := hv
    subst hr
    show (p1, some RnngError.illegalAction) = (p, some RnngError.illegalAction)
    rw [hp1]

theorem top_isSome_of_len (e : StackLSTM S V) (h : 1 ≤ e.len) :
    ∃ v, e.top = some v := by
  unfold StackLSTM.len at h
  unfold StackLSTM.top
  rcases h2 : e.outputs_hist with _ | ⟨v, rest⟩
  · rw [h2] at h; simp at h
  · exact ⟨v, rfl⟩

/-- The masked log-probability vector computed in an invariant state: defined,
no state change, `⊥` exactly at the ids the legality mask excludes. -/
theorem compute_ok (p : DiscRNNG S V) (hInv : Inv p) :
    ∃ st bt ht, p.stack_encoder.top = some st ∧ p.buffer_encoder.top = some bt ∧
      p.history_encoder.top = some ht ∧
      p.compute_action_log_probs = (p, Except.ok (fun i =>
        if (illegalIdsPure p 0 p.cfg.actionVocab).contains i then ⊥
        else ((p.cfg.rawScore st bt ht i : ℚ) : WithBot ℚ))) := by
  obtain ⟨st, h1⟩ := top_isSome_of_len _ hInv.stk_enc_pos
  obtain ⟨bt, h2⟩ := top_isSome_of_len (S := S) (V := V) p.buffer_encoder (by
    have := hInv.buf_enc_len
    omega)
  obtain ⟨ht, h3⟩ := top_isSome_of_len _ hInv.hist_enc_pos
  refine ⟨st, bt, ht, h1, h2, h3, ?_⟩
  unfold DiscRNNG.compute_action_log_probs
  rw [if_neg (by simp [hInv.started]), h1, h2, h3, get_illegal_action_ids_eq]

/-- The termination measure for decoding: the buffer shrinks on Shift; with
the buffer fixed, an Open strictly lowers the remaining-open slack, and a
Reduce (which requires that the previous action was not an Open) strictly
lowers the open count, so the bracketed quantity decreases on both. -/
def pmeasure (p : DiscRNNG S V) : Nat :=
  p.buffer.length * 201 +
    (if p.lastIsNT then 100 - openCount p.stack else 100 + openCount p.stack)

theorem pmeasure_lt_nt (p q : DiscRNNG S V)
    (hb : q.buffer.length = p.buffer.length)
    (hnt : q.lastIsNT = true)
    (hoc : openCount q.stack = openCount p.stack + 1)
    (hlt : openCount p.stack < 100) :
    pmeasure q < pmeasure p := by
  unfold pmeasure
  rw [hb]
  have e1 : (if q.lastIsNT then 100 - openCount q.stack else 100 + openCount q.stack)
      = 100 - (openCount p.stack + 1) := by
    rw [hnt, hoc]; simp
  rw [e1]
  by_cases hx : p.lastIsNT
  · rw [if_pos hx]; omega
  · rw [if_neg hx]; omega

theorem pmeasure_lt_shift (p q : DiscRNNG S V)
    (hb : q.buffer.length + 1 = p.buffer.length)
    (hnt : q.lastIsNT = false)
    (hoc : openCount q.stack = openCount p.stack)
    (hle : openCount p.stack ≤ 100) :
    pmeasure q < pmeasure p := by
  unfold pmeasure
  have e1 : (if q.lastIsNT then 100 - openCount q.stack else 100 + openCount q.stack)
      = 100 + openCount p.stack := by
    rw [hnt, hoc]; simp
  rw [e1, ← hb]
  by_cases hx : p.lastIsNT
  · rw [if_pos hx]; omega
  · rw [if_neg hx]; omega

theorem pmeasure_lt_reduce (p q : DiscRNNG S V)
    (hb : q.buffer.length = p.buffer.length)
    (hqnt : q.lastIsNT = false)
    (hpnt : p.lastIsNT = false)
    (hoc : openCount q.stack + 1 = openCount p.stack) :
    pmeasure q < pmeasure p := by
  unfold pmeasure
  rw [hb]
  have e1 : (if q.lastIsNT then 100 - openCount q.stack else 100 + openCount q.stack)
      = 100 + openCount q.stack := by
    rw [hqnt]; simp
  have e2 : (if p.lastIsNT then 100 - openCount p.stack else 100 + openCount p.stack)
      = 100 + openCount p.stack := by
    rw [hpnt]; simp
  rw [e1, e2]
  omega

/-- Progress: in an invariant state, an action whose verification succeeds and
that is present in the action vocabulary executes successfully, preserves the
configuration and the invariant, strictly decreases the measure, and changes
the buffer length exactly when it is a Shift. -/
theorem execute_ok_of_legal (p : DiscRNNG S V) (a : Action) (hInv : Inv p)
    (hv : (a.verify_on p).2 = none) (hmem : a ∈ p.cfg.actionVocab) :
    ∃ q, a.execute_on p = (q, none) ∧ q.cfg = p.cfg ∧ Inv q ∧
      pmeasure q < pmeasure p ∧
      (a = Action.shift → q.buffer.length + 1 = p.buffer.length) ∧
      (a ≠ Action.shift → q.buffer = p.buffer) := by
  cases a with
  | nt lab =>
    have hv2 : (p.verify_push_nt).2 = none := hv
    obtain ⟨hs, hf, hb, hcap⟩ := verify_push_nt_none p hv2
    have hcap2 : p.num_open_nt < 100 := by
      unfold DiscRNNG.MAX_OPEN_NT at hcap
      omega
    have hoc100 : openCount p.stack < 100 := by
      have := hInv.openc
      omega
    have hrun := push_nt_run p lab hv2
    rw [append_history_ok (p.doPushNt lab) (Action.nt lab) hmem] at hrun
    refine ⟨_, hrun, rfl, inv_push_nt p _ lab hInv hrun, ?_,
      fun hcontra => absurd hcontra (by simp), fun _ => rfl⟩
    exact pmeasure_lt_nt p _ rfl rfl (openCount_cons_open _ _ rfl) hoc100
  | shift =>
    have hv2 : (p.verify_shift).2 = none := hv
    obtain ⟨hs, hf, hbne, hnz⟩ := verify_shift_none p hv2
    rcases hbuf : p.buffer with _ | ⟨w, rest⟩
    · exact absurd hbuf hbne
    have hol : 1 ≤ p.buffer_encoder.outputs_hist.length := by
      have := hInv.buf_enc_len
      unfold StackLSTM.len at this
      omega
    obtain ⟨q2, hdo, c1, c2, c3, c4, c5, c6, c7, c8, c9, c10⟩ :=
      doShift_ok p w rest hbuf hol hInv.buf_enc_ge
    have hrun := shift_run p hv2
    rw [hdo] at hrun
    have hmem2 : Action.shift ∈ q2.cfg.actionVocab := by rw [c1]; exact hmem
    have hrun2 : p.shift = q2.append_history Action.shift := hrun
    rw [append_history_ok q2 Action.shift hmem2] at hrun2
    have hblen : q2.buffer.length + 1 = (w :: rest).length := by
      rw [c2]
      simp
    have hblenP : q2.buffer.length + 1 = p.buffer.length := by
      rw [hbuf]
      exact hblen
    refine ⟨_, hrun2, c1, inv_shift p _ hInv hrun2, ?_, fun _ => hblen,
      fun hne => absurd rfl hne⟩
    refine pmeasure_lt_shift p _ hblenP rfl ?_ hInv.open_le
    show openCount q2.stack = openCount p.stack
    rw [c3, openCount_cons_closed _ _ rfl]
  | reduce =>
    have hv2 : (p.verify_reduce).2 = none := hv
    obtain ⟨hs, hf, hpnt, hcond⟩ := verify_reduce_none p hv2
    obtain ⟨cs, opener, rest2, lab, kids, hsplit, hcs, hsub, hnum, hoc, pre, hpre⟩ :=
      reduce_setup p hInv hv2
    have hdo := doReduce_ok p cs opener rest2 lab kids hsplit hcs hsub hnum
    have hrun := reduce_run p hv2
    rw [hdo] at hrun
    have hrun2 : p.reduce =
        ({ p with stack := ⟨Subtree.tree lab (kids ++ cs.reverse.map Prod.fst),
                  p.cfg.compose opener.emb (cs.reverse.map Prod.snd), false⟩ :: rest2,
                  num_open_nt := p.num_open_nt - 1 } : DiscRNNG S V).append_history
          Action.reduce := hrun
    rw [append_history_ok ({ p with
          stack := ⟨Subtree.tree lab (kids ++ cs.reverse.map Prod.fst),
                   p.cfg.compose opener.emb (cs.reverse.map Prod.snd), false⟩ :: rest2,
          num_open_nt := p.num_open_nt - 1 } : DiscRNNG S V) Action.reduce hmem] at hrun2
    refine ⟨_, hrun2, rfl, inv_reduce p _ hInv hrun2, ?_,
      fun hcontra => absurd hcontra (by simp), fun _ => rfl⟩
    refine pmeasure_lt_reduce p _ rfl rfl hpnt ?_
    show openCount ((⟨Subtree.tree lab (kids ++ cs.reverse.map Prod.fst),
        p.cfg.compose opener.emb (cs.reverse.map Prod.snd), false⟩ : StackElement V)
        :: rest2) + 1 = openCount p.stack
    rw [openCount_cons_closed _ _ rfl]
    omega

/-! ### Claim C5: teacher-forced scoring -/

/-- Follows the spec wording for `scoreSequence` (section 4.5): the list of
log-probabilities the scorer assigns to the gold actions, each scored in turn
just before its action is applied to the state; "if a gold action turns out
illegal at that point, accumulation stops early at that position", so the
illegal position still contributes (its masked log-probability) and no later
position does. -/
def specGoldLogProbs : DiscRNNG S V → List Action → List (WithBot ℚ)
  | _, [] => []
  | p, a :: rest =>
    match p.compute_action_log_probs with
    | (_, Except.error _) => []
    | (p1, Except.ok lp) =>
      if (a.verify_on p1).2 = none then
        lp (p1.aid a) :: specGoldLogProbs ((a.execute_on p1).1) rest
      else [lp (p1.aid a)]

theorem forwardLoop_spec (actions : List Action) (p : DiscRNNG S V) (llh : WithBot ℚ)
    (hInv : Inv p) (hvocab : ∀ a ∈ actions, a ∈ p.cfg.actionVocab) :
    (p.forwardLoop llh actions).2 =
      Except.ok (wbNeg (llh + (specGoldLogProbs p actions).sum)) := by
  induction actions generalizing p llh with
  | nil => simp [DiscRNNG.forwardLoop, specGoldLogProbs]
  | cons a rest ih =>
    obtain ⟨st, bt, ht, h1, h2, h3, hcomp⟩ := compute_ok p hInv
    have hm : a ∈ p.cfg.actionVocab := hvocab a (List.mem_cons_self a rest)
    unfold DiscRNNG.forwardLoop specGoldLogProbs
    rw [hcomp]
    dsimp only
    rw [if_pos hm]
    by_cases hleg : (a.verify_on p).2 = none
    · obtain ⟨q, hexec, hcfg, hInvq, _, _, _⟩ := execute_ok_of_legal p a hInv hleg hm
      rw [hexec, if_pos hleg]
      dsimp only
      rw [ih q _ hInvq (by rw [hcfg]; exact fun x hx => hvocab x (List.mem_cons_of_mem a hx))]
      rw [List.sum_cons, add_assoc]
    · have hsome : (a.verify_on p).2 = some RnngError.illegalAction :=
        (verify_on_range a p).resolve_left hleg
      rw [execute_fail_of_illegal p a hsome, if_neg hleg]
      dsimp only
      rw [List.sum_cons, List.sum_nil, add_zero]

/-- Claim C5: `forward` accumulates the scorer's log-probability of each gold
action in turn and applies the action; accumulation stops early at the first
illegal gold action (which still contributes its masked log-probability, while
no later position contributes), and the returned scalar is the negation of the
accumulated total.  `specGoldLogProbs` is the spec-side description of the
per-position contributions. -/
theorem C5_forward_spec (p0 : DiscRNNG S V) (words : List Word)
    (pos_tags : List POSTag) (p1 : DiscRNNG S V) (actions : List Action)
    (hstart : p0.start words pos_tags = (p1, none))
    (hvocab : ∀ a ∈ actions, a ∈ p1.cfg.actionVocab) :
    (p0.forward words pos_tags actions).2 =
      Except.ok (wbNeg (specGoldLogProbs p1 actions).sum) := by
  have hInv := inv_start p0 p1 words pos_tags hstart
  unfold DiscRNNG.forward
  rw [hstart]
  dsimp only
  rw [forwardLoop_spec actions p1 0 hInv hvocab, zero_add]

/-- Witness for C5: a complete gold derivation of the one-word sentence. -/
theorem C5_witness :
    (sample0.forward ["a"] ["A"] [Action.nt "S", Action.shift, Action.reduce]).2 =
      Except.ok (wbNeg
        (specGoldLogProbs sampleStarted [Action.nt "S", Action.shift, Action.reduce]).sum) :=
  C5_forward_spec sample0 ["a"] ["A"] sampleStarted
    [Action.nt "S", Action.shift, Action.reduce] rfl (by decide)

/-! ### Claim C6: greedy decoding terminates -/

theorem bestId_spec (f : Nat → WithBot ℚ) (l : List Nat) (b : Nat) :
    (bestId f l b = b ∨ bestId f l b ∈ l) ∧
    (¬ f (bestId f l b) < f b) ∧ (∀ j ∈ l, ¬ f (bestId f l b) < f j) := by
  induction l generalizing b with
  | nil => exact ⟨Or.inl rfl, lt_irrefl _, by simp⟩
  | cons i rest ih =>
    obtain ⟨hmem, hge, hall⟩ := ih (if f b < f i then i else b)
    have hstep : bestId f (i :: rest) b = bestId f rest (if f b < f i then i else b) := rfl
    rw [hstep]
    by_cases hc : f b < f i
    · rw [if_pos hc] at hmem hge hall ⊢
      refine ⟨?_, ?_, ?_⟩
      · rcases hmem with h | h
        · right; rw [h]; exact List.mem_cons_self _ _
        · right; exact List.mem_cons_of_mem _ h
      · intro hlt
        exact hge (lt_trans hlt hc)
      · intro j hj
        rcases List.mem_cons.mp hj with h | h
        · rw [h]; exact hge
        · exact hall j h
    · rw [if_neg hc] at hmem hge hall ⊢
      have hle : f i ≤ f b := le_of_not_lt hc
      refine ⟨?_, ?_, ?_⟩
      · rcases hmem with h | h
        · left; exact h
        · right; exact List.mem_cons_of_mem _ h
      · exact hge
      · intro j hj
        rcases List.mem_cons.mp hj with h | h
        · rw [h]
          intro hlt
          exact hge (lt_of_lt_of_le hlt hle)
        · exact hall j h

theorem argmaxId_lt (f : Nat → WithBot ℚ) (n : Nat) (hn : 0 < n) :
    argmaxId f n < n := by
  obtain ⟨hmem, -, -⟩ := bestId_spec f (List.range n) 0
  rcases hmem with h | h
  · unfold argmaxId
    rw [h]
    exact hn
  · exact List.mem_range.mp h

theorem argmaxId_max (f : Nat → WithBot ℚ) (n : Nat) (j : Nat) (hj : j < n) :
    ¬ f (argmaxId f n) < f j := by
  obtain ⟨-, -, hall⟩ := bestId_spec f (List.range n) 0
  exact hall j (List.mem_range.mpr hj)

theorem get?_eq_getD_of_lt {α : Type} (l : List α) (i : Nat) (d : α)
    (h : i < l.length) : l.get? i = some (l.getD i d) := by
  induction l generalizing i with
  | nil => simp at h
  | cons a t ihl =>
    cases i with
    | zero => rfl
    | succ j => exact ihl j (by simpa using h)

theorem illegalIdsPure_mem (p : DiscRNNG S V) (l : List Action) (off j : Nat) :
    j ∈ illegalIdsPure p off l ↔
      ∃ k a, l.get? k = some a ∧ j = off + k ∧ ((a.verify_on p).2) ≠ none := by
  induction l generalizing off with
  | nil => simp [illegalIdsPure]
  | cons b rest ih =>
    unfold illegalIdsPure
    by_cases hvb : (b.verify_on p).2 = none
    · rw [if_pos hvb, ih (off + 1)]
      constructor
      · rintro ⟨k, a, h1, h2, h3⟩
        exact ⟨k + 1, a, by simpa using h1, by omega, h3⟩
      · rintro ⟨k, a, h1, h2, h3⟩
        cases k with
        | zero =>
          have hba : b = a := by simpa using h1
          rw [hba] at hvb
          exact absurd hvb h3
        | succ k2 =>
          exact ⟨k2, a, by simpa using h1, by omega, h3⟩
    · rw [if_neg hvb]
      constructor
      · intro hj
        rcases List.mem_cons.mp hj with h | h
        · exact ⟨0, b, rfl, by omega, hvb⟩
        · obtain ⟨k, a, h1, h2, h3⟩ := (ih (off + 1)).mp h
          exact ⟨k + 1, a, by simpa using h1, by omega, h3⟩
      · rintro ⟨k, a, h1, h2, h3⟩
        cases k with
        | zero =>
          rw [show j = off by omega]
          exact List.mem_cons_self _ _
        | succ k2 =>
          refine List.mem_cons_of_mem _ ((ih (off + 1)).mpr ?_)
          exact ⟨k2, a, by simpa using h1, by omega, h3⟩

/-- The number of ids in a decode output that decode to `SHIFT`. -/
def countShifts (vocab : List Action) (ids : List Nat) : Nat :=
  (ids.filter (fun i => vocab.getD i Action.shift == Action.shift)).length

theorem countShifts_append (vocab : List Action) (l : List Nat) (i : Nat) :
    countShifts vocab (l ++ [i]) =
      countShifts vocab l +
        (if vocab.getD i Action.shift == Action.shift then 1 else 0) := by
  unfold countShifts
  rw [List.filter_append, List.length_append]
  congr 1
  rw [List.filter_cons, List.filter_nil]
  by_cases h : (vocab.getD i Action.shift == Action.shift) = true
  · rw [if_pos h, if_pos h]
    rfl
  · rw [if_neg h, if_neg h]
    rfl

/-- The decode loop terminates with a finished parser whenever the fuel
exceeds the measure, the invariant holds, and the action vocabulary contains
Shift, Reduce and at least one OpenNonterminal action.  The number of Shift
ids appended to the output equals the number of buffer words consumed. -/
theorem decodeLoop_term (fuel : Nat) :
    ∀ (p : DiscRNNG S V) (acc : List Nat), Inv p → pmeasure p < fuel →
    Action.shift ∈ p.cfg.actionVocab →
    Action.reduce ∈ p.cfg.actionVocab →
    (∃ lbl, Action.nt lbl ∈ p.cfg.actionVocab) →
    ∃ pf ids, DiscRNNG.decodeLoop fuel p acc = some (pf, Except.ok ids) ∧
      pf.finished = true ∧ pf.cfg = p.cfg ∧
      countShifts p.cfg.actionVocab ids + pf.buffer.length =
        countShifts p.cfg.actionVocab acc.reverse + p.buffer.length := by
  induction fuel with
  | zero =>
    intro p acc _ hfuel _ _ _
    omega
  | succ fuel ih =>
    intro p acc hInv hfuel hsh hrd hnt
    by_cases hfin : p.finished
    · refine ⟨p, acc.reverse, ?_, hfin, rfl, rfl⟩
      unfold DiscRNNG.decodeLoop
      rw [if_pos hfin]
    · have hf : p.finished = false := by
        rcases hx : p.finished
        · rfl
        · exact absurd hx hfin
      obtain ⟨st, bt, ht, h1, h2, h3, hcomp⟩ := compute_ok p hInv
      obtain ⟨aL, hvL, hmemL⟩ :
          ∃ a : Action, (a.verify_on p).2 = none ∧ a ∈ p.cfg.actionVocab := by
        rcases not_stuck p hInv hf with h | h | h
        · obtain ⟨lbl, hl⟩ := hnt
          exact ⟨Action.nt lbl, h, hl⟩
        · exact ⟨Action.shift, h, hsh⟩
        · exact ⟨Action.reduce, h, hrd⟩
      set vocab := p.cfg.actionVocab with hvocabdef
      set lp : Nat → WithBot ℚ := (fun i =>
        if (illegalIdsPure p 0 vocab).contains i then ⊥
        else ((p.cfg.rawScore st bt ht i : ℚ) : WithBot ℚ)) with hlpdef
      have hidxL : vocab.indexOf aL < vocab.length := List.indexOf_lt_length.mpr hmemL
      have hgetL : vocab.get? (vocab.indexOf aL) = some aL := List.indexOf_get? hmemL
      have hnotmemL : ¬ vocab.indexOf aL ∈ illegalIdsPure p 0 vocab := by
        intro hmem2
        obtain ⟨k, a2, hga, hoff, hvbad⟩ :=
          (illegalIdsPure_mem p vocab 0 (vocab.indexOf aL)).mp hmem2
        rw [show k = vocab.indexOf aL by omega, hgetL] at hga
        have ha2 : a2 = aL := (Option.some.inj hga).symm
        rw [ha2] at hvbad
        exact hvbad hvL
      have hlpL : lp (vocab.indexOf aL) =
          ((p.cfg.rawScore st bt ht (vocab.indexOf aL) : ℚ) : WithBot ℚ) := by
        rw [hlpdef]
        have hcon : ((illegalIdsPure p 0 vocab).contains (vocab.indexOf aL)) = false := by
          rcases hy : (illegalIdsPure p 0 vocab).contains (vocab.indexOf aL)
          · rfl
          · exact absurd (by simpa using hy) hnotmemL
        simp only [hcon]
        rfl
      have hfiniteL : lp (vocab.indexOf aL) ≠ ⊥ := by
        rw [hlpL]
        exact WithBot.coe_ne_bot
      have hnpos : 0 < vocab.length := Nat.lt_of_le_of_lt (Nat.zero_le _) hidxL
      have hamax_lt : argmaxId lp p.num_actions < vocab.length :=
        argmaxId_lt lp p.num_actions hnpos
      have hamax_max := argmaxId_max lp p.num_actions (vocab.indexOf aL) hidxL
      have hamax_ne : lp (argmaxId lp p.num_actions) ≠ ⊥ := by
        intro hbot
        apply hamax_max
        rw [hbot]
        exact Ne.bot_lt hfiniteL
      set amax := argmaxId lp p.num_actions with hamaxdef
      have hget2 : vocab.get? amax = some (vocab.getD amax Action.shift) :=
        get?_eq_getD_of_lt vocab amax Action.shift hamax_lt
      set a2 := vocab.getD amax Action.shift with ha2def
      have hmem2 : a2 ∈ vocab := List.get?_mem hget2
      have hnotmem2 : ¬ amax ∈ illegalIdsPure p 0 vocab := by
        intro hmem3
        apply hamax_ne
        rw [hlpdef]
        have hcon : ((illegalIdsPure p 0 vocab).contains amax) = true := by
          simpa using hmem3
        simp only [hcon]
        rfl
      have hleg2 : (a2.verify_on p).2 = none := by
        by_contra hbad
        exact hnotmem2 ((illegalIdsPure_mem p vocab 0 amax).mpr
          ⟨amax, a2, hget2, by omega, hbad⟩)
      obtain ⟨q, hexec, hcfg, hInvq, hmeas, hshiftlen, hnshiftlen⟩ :=
        execute_ok_of_legal p a2 hInv hleg2 hmem2
      have hexec2 : (p.id2action (argmaxId lp p.num_actions)).execute_on p = (q, none) :=
        hexec
      have hstep : DiscRNNG.decodeLoop (fuel + 1) p acc =
          DiscRNNG.decodeLoop fuel q (argmaxId lp p.num_actions :: acc) := by
        conv_lhs => unfold DiscRNNG.decodeLoop
        rw [if_neg hfin, hcomp]
        dsimp only
        rw [hexec2]
      obtain ⟨pf, ids, hrec, hfinpf, hcfgpf, hcount⟩ :=
        ih q (argmaxId lp p.num_actions :: acc) hInvq (by omega)
          (by rw [hcfg]; exact hsh) (by rw [hcfg]; exact hrd)
          (by rw [hcfg]; exact hnt)
      refine ⟨pf, ids, ?_, hfinpf, by rw [hcfgpf, hcfg], ?_⟩
      · rw [hstep]
        exact hrec
      · rw [hcfg] at hcount
        rw [List.reverse_cons, countShifts_append] at hcount
        rw [← hvocabdef] at hcount
        by_cases hshift : a2 = Action.shift
        · have hlen := hshiftlen hshift
          have hpred : (vocab.getD amax Action.shift == Action.shift) = true := by
            rw [← ha2def, hshift]
            rfl
          rw [hpred, if_pos rfl] at hcount
          omega
        · have hlen : q.buffer = p.buffer := hnshiftlen hshift
          have hlen2 : q.buffer.length = p.buffer.length := by rw [hlen]
          have hpred : (vocab.getD amax Action.shift == Action.shift) = false := by
            rcases hy : (vocab.getD amax Action.shift == Action.shift)
            · rfl
            · exact absurd (by rw [← ha2def] at hy; exact beq_iff_eq.mp hy) hshift
          rw [hpred, if_neg (by simp : ¬ (false = true))] at hcount
          omega

/-- A model whose action vocabulary lacks any OpenNonterminal action; the
constructor (models.py lines 145-148) demands only SHIFT and REDUCE. -/
def cfgNoNt : RnngConfig Nat Nat :=
  { sampleCfg with actionVocab := [Action.shift, Action.reduce] }

def sampleNoNt : DiscRNNG Nat Nat :=
  { sample0 with cfg := cfgNoNt }

/-- Claim C6 counterexample: with the vocabulary `[SHIFT, REDUCE]` — accepted
by the constructor, which requires only those two strings — `decode` on the
equal-length nonempty input `["a"]`/`["A"]` does not reach a finished state:
no vocabulary action is legal at the start state, so the first loop iteration
raises `IllegalActionError` out of `decode`, refuting the claim as stated. -/
theorem C6_counterexample :
    (sampleNoNt.start ["a"] ["A"]).2 = none ∧
    (sampleNoNt.decode 1000 ["a"] ["A"]).map Prod.snd =
      some (Except.error RnngError.illegalAction) ∧
    (sampleNoNt.decode 1000 ["a"] ["A"]).map (fun r => (r.1).finished) = some false := by
  refine ⟨rfl, rfl, rfl⟩

/-- Claim C6 (amended): provided the action vocabulary also contains at least
one OpenNonterminal action (the constructor guarantees only Shift and Reduce
are present), `decode` terminates on every equal-length nonempty input: the
greedy loop — run here with fuel `201·length + 201`, standing for the
unbounded Python `while` loop — reaches a state with `finished = true`, the
number of Shift ids it emits is bounded by the sentence length, and the number
of simultaneously open nonterminals in any reachable state is bounded by the
cap `MAX_OPEN_NT`. -/
theorem C6_decode_terminates (p0 : DiscRNNG S V) (words : List Word)
    (pos_tags : List POSTag) (p1 : DiscRNNG S V)
    (hstart : p0.start words pos_tags = (p1, none))
    (hsh : Action.shift ∈ p1.cfg.actionVocab)
    (hrd : Action.reduce ∈ p1.cfg.actionVocab)
    (hnt : ∃ lbl, Action.nt lbl ∈ p1.cfg.actionVocab) :
    ∃ pf ids, p0.decode (words.length * 201 + 201) words pos_tags =
        some (pf, Except.ok ids) ∧
      pf.finished = true ∧
      countShifts p1.cfg.actionVocab ids ≤ words.length ∧
      (∀ q, Reachable p0 q → q.num_open_nt ≤ DiscRNNG.MAX_OPEN_NT) := by
  have hInv := inv_start p0 p1 words pos_tags hstart
  obtain ⟨c0, s1, s2, s3, s4, s5, s6, s7, s8, s9, s10⟩ :=
    start_ok p0 p1 words pos_tags hstart
  have hlast : p1.lastIsNT = false := by
    unfold DiscRNNG.lastIsNT
    rw [s3]
  have hmeas : pmeasure p1 < words.length * 201 + 201 := by
    unfold pmeasure
    have e1 : (if p1.lastIsNT then 100 - openCount p1.stack else 100 + openCount p1.stack)
        = 100 + openCount p1.stack := by
      rw [hlast]; simp
    rw [e1, s2, s1]
    have h0 : openCount ([] : List (StackElement V)) = 0 := rfl
    rw [h0]
    omega
  obtain ⟨pf, ids, hloop, hfin, hcfg, hcount⟩ :=
    decodeLoop_term (words.length * 201 + 201) p1 [] hInv hmeas hsh hrd hnt
  refine ⟨pf, ids, ?_, hfin, ?_, ?_⟩
  · unfold DiscRNNG.decode
    rw [hstart]
    exact hloop
  · have h0 : countShifts p1.cfg.actionVocab (([] : List Nat).reverse) = 0 := rfl
    rw [h0, s2] at hcount
    omega
  · intro q hq
    have hI := inv_reachable p0 q hq
    have ho1 := hI.openc
    have ho2 := hI.open_le
    unfold DiscRNNG.MAX_OPEN_NT
    omega

/-- Witness for the amended C6 on the one-word sentence. -/
theorem C6_witness :
    ∃ pf ids, sample0.decode (1 * 201 + 201) ["a"] ["A"] = some (pf, Except.ok ids) ∧
      pf.finished = true ∧
      countShifts sampleStarted.cfg.actionVocab ids ≤ 1 ∧
      (∀ q, Reachable sample0 q → q.num_open_nt ≤ DiscRNNG.MAX_OPEN_NT) :=
  C6_decode_terminates sample0 ["a"] ["A"] sampleStarted rfl (by decide) (by decide)
    ⟨"S", by decide⟩

end Rnng
